import Mathlib

/-!
Verification of the schema-discovery engine of convex-devtools
(`SchemaWatcher` in the server sources): a shallow embedding of the
regex-based text extractor, the directory walker, the schema-file table
extractor and the snapshot builder, together with proofs settling the
frozen claims about them.

All JavaScript regular expressions of the source are embedded as
character-list scanners that follow the JS semantics of the concrete
patterns used there (leftmost match, greedy quantifiers with the
backtracking the concrete patterns can exhibit, `lastIndex` advancing past
each global match).
-/

namespace ConvexDevtools

/-- JS `\s` whitespace class (the characters relevant to this code base). -/
def isWs (c : Char) : Bool :=
  c = ' ' || c = '\t' || c = '\n' || c = '\r'

/-- JS `\w` word-character class. -/
def isWordChar (c : Char) : Bool :=
  ('a' ≤ c && c ≤ 'z') || ('A' ≤ c && c ≤ 'Z') || ('0' ≤ c && c ≤ '9') || c = '_'

/-- Strip a literal pattern from the front of the input, returning the rest. -/
def stripLit : List Char → List Char → Option (List Char)
  | [], l => some l
  | _ :: _, [] => none
  | p :: ps, c :: cs => if c = p then stripLit ps cs else none

/-- Greedy `\w+`: at least one word character, maximal munch. -/
def word1 (l : List Char) : Option (List Char × List Char) :=
  match l with
  | [] => none
  | c :: cs =>
    if isWordChar c then
      some (c :: List.takeWhile isWordChar cs, List.dropWhile isWordChar cs)
    else none

/-- Greedy `\s+`: at least one whitespace character. -/
def ws1 (l : List Char) : Option (List Char) :=
  match l with
  | [] => none
  | c :: cs => if isWs c then some (List.dropWhile isWs cs) else none

/-- Greedy `\s*`. -/
def wsSkip (l : List Char) : List Char :=
  List.dropWhile isWs l

/-- Expect one fixed character. -/
def expectChar (a : Char) (l : List Char) : Option (List Char) :=
  match l with
  | [] => none
  | c :: cs => if c = a then some cs else none

/-- Substring test (JS `String.match` with a literal pattern succeeding). -/
def hasSub : List Char → List Char → Bool
  | _, [] => true
  | [], _ :: _ => false
  | c :: cs, p :: ps => List.isPrefixOf (p :: ps) (c :: cs) || hasSub cs (p :: ps)

/-- Index of the first occurrence of a pattern, if any. -/
def findSubIdx : List Char → List Char → Option Nat
  | l, [] => if l.isEmpty then some 0 else some 0
  | [], _ :: _ => none
  | c :: cs, p :: ps =>
    if List.isPrefixOf (p :: ps) (c :: cs) then some 0
    else (findSubIdx cs (p :: ps)).map (· + 1)

/-! ### Pattern constants taken verbatim from the source regexes -/

def kwExport : List Char := "export".data
def kwConst : List Char := "const".data
def kwQuery : List Char := "query".data
def kwMutation : List Char := "mutation".data
def kwAction : List Char := "action".data
def kwInternalQuery : List Char := "internalQuery".data
def kwInternalMutation : List Char := "internalMutation".data
def kwInternalAction : List Char := "internalAction".data

/-- The alternation of kind keywords of the export regex, in source order. -/
def kindsL : List (List Char) :=
  [kwQuery, kwMutation, kwAction, kwInternalQuery, kwInternalMutation, kwInternalAction]

def argsKey : List Char := "args:".data
def optWrap : List Char := "v.optional(".data
def vdot : List Char := "v.".data
def pagMarker : List Char := "paginationOptsValidator".data
def atParam : List Char := "@param".data
def defineTableKey : List Char := "defineTable(".data
def starSlash : List Char := ['*', '/']
def slashStarStar : List Char := ['/', '*', '*']

/-! ### Matchers: a single attempted match at the current position.
Each embeds one regex of the source, at one start position. -/

/-- Continuation of one kind alternative: `\s*\(\s*\x7b` after the keyword. -/
def kindTail (k l : List Char) : Option (List Char) :=
  (stripLit k l).bind fun r1 =>
  (expectChar '(' (wsSkip r1)).bind fun r2 =>
  expectChar '\x7b' (wsSkip r2)

/-- Tail of the export regex after the function name and `=`:
`(query|mutation|action|internalQuery|internalMutation|internalAction)\s*\(\s*\x7b`.
Each alternative is tried with its full continuation, as regex backtracking does. -/
def tryKinds : List (List Char) → List Char → Option (List Char × List Char)
  | [], _ => none
  | k :: ks, l =>
    match kindTail k l with
    | some r3 => some (k, r3)
    | none => tryKinds ks l

/-- One attempted match of
`export\s+const\s+(\w+)\s*=\s*(query|mutation|action|internalQuery|internalMutation|internalAction)\s*\(\s*\x7b`
at the head of `l`; returns (captured name, captured kind, rest after the match). -/
def matchExportAt (l : List Char) : Option (List Char × List Char × List Char) :=
  (stripLit kwExport l).bind fun r1 =>
  (ws1 r1).bind fun r2 =>
  (stripLit kwConst r2).bind fun r3 =>
  (ws1 r3).bind fun r4 =>
  (word1 r4).bind fun p =>
  (expectChar '=' (wsSkip p.2)).bind fun r6 =>
  (tryKinds kindsL (wsSkip r6)).map fun q => (p.1, q.1, q.2)

/-- Fallback of the argument regex when the optional wrapper group is not
taken: `v\.(\w+)` applied after `(\w+):\s*`. -/
def matchArgNoOpt (nm : List Char) (r3 : List Char) :
    Option ((List Char × Bool × List Char) × List Char) :=
  (stripLit vdot r3).bind fun r4 =>
  (word1 r4).map fun q => ((nm, false, q.1), q.2)

/-- One attempted match of `(\w+):\s*(v\.optional\()?v\.(\w+)` at the head of
`l`; returns ((arg name, wrapper taken, validator name), rest). When the
optional-wrapper group matches but the continuation `v\.(\w+)` fails, the
regex backtracks to the group being empty, which the fallback reproduces. -/
def matchArgAt (l : List Char) : Option ((List Char × Bool × List Char) × List Char) :=
  (word1 l).bind fun p =>
  (expectChar ':' p.2).bind fun r2 =>
  match (stripLit optWrap (wsSkip r2)).bind (fun r4 => (stripLit vdot r4).bind word1) with
  | some q => some ((p.1, true, q.1), q.2)
  | none => matchArgNoOpt p.1 (wsSkip r2)

/-- One attempted match of `'([^']+)'` at the head of `l`:
(inner text, rest after the closing quote). -/
def matchQuoteAt (l : List Char) : Option (List Char × List Char) :=
  match l with
  | [] => none
  | c :: cs =>
    if c = '\'' then
      match List.dropWhile (fun x => x != '\'') cs with
      | _ :: r2 =>
        if (List.takeWhile (fun x => x != '\'') cs).isEmpty then none
        else some (List.takeWhile (fun x => x != '\'') cs, r2)
      | [] => none
    else none

/-- The `-?` of the `@param` regex. -/
def dashSkip : List Char → List Char
  | '-' :: t => t
  | l => l

/-- One attempted match of `@param\s+(\w+)\s*-?\s*([^@]*)` at the head of `l`:
((param name, raw description), rest from the terminating `@` or the end). -/
def matchParamAt (l : List Char) : Option ((List Char × List Char) × List Char) :=
  (stripLit atParam l).bind fun r1 =>
  (ws1 r1).bind fun r2 =>
  (word1 r2).map fun p =>
    ((p.1, List.takeWhile (fun x => x != '@') (wsSkip (dashSkip (wsSkip p.2)))),
      List.dropWhile (fun x => x != '@') (wsSkip (dashSkip (wsSkip p.2))))

/-- One attempted match of `(\w+):\s*defineTable\(` at the head of `l`. -/
def matchTableAt (l : List Char) : Option (List Char × List Char) :=
  (word1 l).bind fun p =>
  (expectChar ':' p.2).bind fun r2 =>
  (stripLit defineTableKey (wsSkip r2)).map fun r3 => (p.1, r3)

/-- One attempted match of `args:\s*\x7b([^\x7d]*)\x7d` at the head of `l`,
returning the captured inner text. -/
def matchArgsBlockAt (l : List Char) : Option (List Char) :=
  (stripLit argsKey l).bind fun r1 =>
  (expectChar '\x7b' (wsSkip r1)).bind fun r2 =>
  match List.dropWhile (fun x => x != '\x7d') r2 with
  | _ :: _ => some (List.takeWhile (fun x => x != '\x7d') r2)
  | [] => none

/-! ### Global scanning (`exec` in a loop with `lastIndex`).
`scanSkip m l k` walks the text character by character; `k` counts characters
still inside the previous match (the JS `lastIndex` semantics: a new match
attempt happens only at or after the end of the previous match). -/

def scanSkip (m : List Char → Option (α × List Char)) : List Char → Nat → List α
  | [], _ => []
  | _ :: cs, k + 1 => scanSkip m cs k
  | c :: cs, 0 =>
    match m (c :: cs) with
    | some (a, rest) => a :: scanSkip m cs ((c :: cs).length - rest.length - 1)
    | none => scanSkip m cs 0

/-- All matches of the argument regex over an args-block body. -/
def scanArgs (l : List Char) : List (List Char × Bool × List Char) :=
  scanSkip matchArgAt l 0

/-- All matches of `'([^']+)'` over a description. -/
def scanQuotes (l : List Char) : List (List Char) :=
  (scanSkip matchQuoteAt l 0).map id

/-- All matches of the `@param` regex over a JSDoc block. -/
def scanParams (l : List Char) : List (List Char × List Char) :=
  scanSkip matchParamAt l 0

/-- One raw match of the export regex: captured name and kind, the content
before the match (for the JSDoc lookback) and the content from the match
start (the post-match window used for args and pagination detection). -/
structure RawExport where
  name : List Char
  kind : List Char
  pre : List Char
  after : List Char
deriving DecidableEq

/-- Global scan of the export regex, tracking the prefix before each match. -/
def scanExportsAux : List Char → List Char → Nat → List RawExport
  | _, [], _ => []
  | pre, c :: cs, k + 1 => scanExportsAux (pre ++ [c]) cs k
  | pre, c :: cs, 0 =>
    match matchExportAt (c :: cs) with
    | some (nm, kd, rest) =>
      ⟨nm, kd, pre, c :: cs⟩ ::
        scanExportsAux (pre ++ [c]) cs ((c :: cs).length - rest.length - 1)
    | none => scanExportsAux (pre ++ [c]) cs 0

def scanExports (l : List Char) : List RawExport :=
  scanExportsAux [] l 0

/-- First (leftmost) match of `args:\s*\x7b([^\x7d]*)\x7d`, as
`String.match` without the global flag returns it. -/
def findArgsBlock : List Char → Option (List Char)
  | [] => none
  | c :: cs =>
    match matchArgsBlockAt (c :: cs) with
    | some inner => some inner
    | none => findArgsBlock cs

/-! ### JS string helpers used by the source (`String.prototype` methods). -/

/-- JS `String.trim` on a character list. -/
def jsTrimL (l : List Char) : List Char :=
  ((l.dropWhile isWs).reverse.dropWhile isWs).reverse

/-- Right half of JS `String.trim`. -/
def jsTrimRight (l : List Char) : List Char :=
  (l.reverse.dropWhile isWs).reverse

/-- JS `String.replace(pat, rep)` with string arguments: first occurrence only. -/
def replaceFirstL (pat rep : List Char) : List Char → List Char
  | [] => if pat.isEmpty then rep else []
  | c :: cs =>
    if List.isPrefixOf pat (c :: cs) then rep ++ List.drop pat.length (c :: cs)
    else c :: replaceFirstL pat rep cs

def jsReplaceFirst (s pat rep : String) : String :=
  String.mk (replaceFirstL pat.data rep.data s.data)

def jsToLower (s : String) : String :=
  String.mk (s.data.map Char.toLower)

def jsStartsWith (s p : String) : Bool :=
  List.isPrefixOf p.data s.data

def jsEndsWith (s p : String) : Bool :=
  List.isPrefixOf p.data.reverse s.data.reverse

/-! ### `extractJSDocAbove` (lines 282-296 of the watcher module).
First branch: `beforePosition.match(/\/\*\*([\s\S]*?)\*\/\s*$/)` — because of
the end anchor and the lazy group, this captures from the first occurrence of
the comment opener to the final closer when only whitespace follows it.
Second branch: the same opener/closer pair searched lazily (nearest closer)
inside the last 500 characters. -/

def extractJSDocFallback (pre : List Char) : List Char :=
  let last500 := List.drop (pre.length - 500) pre
  match findSubIdx last500 slashStarStar with
  | none => []
  | some i =>
    let after := List.drop (i + 3) last500
    match findSubIdx after starSlash with
    | none => []
    | some j => after.take j

def extractJSDocAbove (pre : List Char) : List Char :=
  let stripped := jsTrimRight pre
  match stripped.reverse with
  | '/' :: '*' :: _ =>
    (match findSubIdx stripped slashStarStar with
     | some i =>
       if i + 3 ≤ stripped.length - 2 then
         (stripped.take (stripped.length - 2)).drop (i + 3)
       else extractJSDocFallback pre
     | none => extractJSDocFallback pre)
  | _ => extractJSDocFallback pre

/-! ### Data model (the exported interfaces of the watcher module). -/

structure ArgInfo where
  name : String
  type : String
  optional : Bool
  description : Option String
  enumValues : Option (List String)
deriving DecidableEq

structure FunctionInfo where
  name : String
  path : String
  type : String
  args : List ArgInfo
  returns : Option String
deriving DecidableEq

/-- `ModuleInfo` is a tree, hence an inductive rather than a structure. -/
inductive ModuleInfo where
  | mk (name path : String) (functions : List FunctionInfo) (children : List ModuleInfo)

def ModuleInfo.name : ModuleInfo → String
  | ⟨n, _, _, _⟩ => n

def ModuleInfo.path : ModuleInfo → String
  | ⟨_, p, _, _⟩ => p

def ModuleInfo.functions : ModuleInfo → List FunctionInfo
  | ⟨_, _, fs, _⟩ => fs

def ModuleInfo.children : ModuleInfo → List ModuleInfo
  | ⟨_, _, _, cs⟩ => cs

structure FieldInfo where
  name : String
  type : String
  optional : Bool
deriving DecidableEq

structure TableInfo where
  name : String
  fields : List FieldInfo
deriving DecidableEq

structure SchemaInfo where
  modules : List ModuleInfo
  tables : List TableInfo
  lastUpdated : Nat

structure WatcherState where
  schemaInfo : Option SchemaInfo

/-! ### `parseJSDocParams` (lines 298-327). -/

structure JSDocInfo where
  description : String
  enumValues : Option (List String)
deriving DecidableEq

/-- JS `Map.set`: overwrite in place if present, else append. -/
def setParam : List (String × JSDocInfo) → String → JSDocInfo → List (String × JSDocInfo)
  | [], k, v => [(k, v)]
  | (k', v') :: rest, k, v =>
    if k' = k then (k, v) :: rest else (k', v') :: setParam rest k v

/-- JS `Map.get`. -/
def getParam : List (String × JSDocInfo) → String → Option JSDocInfo
  | [], _ => none
  | (k', v) :: rest, k => if k' = k then some v else getParam rest k

/-- Info built for one `@param` match: trimmed description, plus the
single-quoted substrings of it as enum values when there are any. -/
def mkParamInfo (desc : List Char) : JSDocInfo :=
  let t := jsTrimL desc
  let qs := scanQuotes t
  { description := String.mk t
    enumValues := if qs = [] then none else some (qs.map String.mk) }

def parseJSDocParams (jsdoc : List Char) : List (String × JSDocInfo) :=
  (scanParams jsdoc).foldl
    (fun acc m => setParam acc (String.mk m.1) (mkParamInfo m.2)) []

/-! ### `extractArgsFromPosition` (lines 329-376). -/

def paginationOptsS : String := "paginationOpts"
def paginationTypeS : String := "PaginationOptions"
def paginationDescS : String := "Pagination options with cursor and numItems"

/-- The synthetic pagination argument of lines 367-372. -/
def synthPaginationArg : ArgInfo :=
  { name := paginationOptsS
    type := paginationTypeS
    optional := false
    description := some paginationDescS
    enumValues := none }

/-- The explicitly declared arguments: the `args:` block of the post-match
window, each entry merged with the JSDoc data by name (lines 337-361). -/
def explicitArgs (afterStart : List Char) (jsdoc : List Char) : List ArgInfo :=
  let ps := parseJSDocParams jsdoc
  match findArgsBlock afterStart with
  | none => []
  | some inner =>
    (scanArgs inner).map fun m =>
      let info := getParam ps (String.mk m.1)
      { name := String.mk m.1
        type := String.mk m.2.2
        optional := m.2.1
        description := info.map JSDocInfo.description
        enumValues := info.bind JSDocInfo.enumValues }

def extractArgsFromPosition (afterStart : List Char) (jsdoc : List Char) : List ArgInfo :=
  let args := explicitArgs afterStart jsdoc
  if hasSub afterStart pagMarker then args ++ [synthPaginationArg] else args

/-! ### `parseFile`'s pure extraction part (lines 240-274), the spec's
`extractFunctions(fileContents, modulePath)`. -/

def internalS : String := "internal"

/-- Lines 249-256: `funcType.replace('internal', '').toLowerCase()` when the
kind starts with `internal`, identity otherwise. -/
def normalizeType (k : String) : String :=
  if jsStartsWith k internalS then jsToLower (jsReplaceFirst k internalS (String.mk [])) else k

def extractFunctions (content modulePath : String) : List FunctionInfo :=
  (scanExports content.data).map fun m =>
    { name := String.mk m.name
      path := modulePath ++ String.mk [':'] ++ String.mk m.name
      type := normalizeType (String.mk m.kind)
      args := extractArgsFromPosition m.after (extractJSDocAbove m.pre)
      returns := none }

/-! ### `parseSchemaFile`'s table scan (lines 386-398). -/

def scanTables (l : List Char) : List TableInfo :=
  (scanSkip matchTableAt l 0).map fun nm => ⟨String.mk nm, []⟩

/-! ### Filesystem model and the directory walker
(`parseConvexDirectory` lines 132-177, `parseSubdirectory` lines 179-229,
`parseFile`'s I/O shell lines 231-280).

A directory entry carries a `readable` flag: `readdirSync` on an unreadable
directory and `readFileSync` on an unreadable file raise, which the model
surfaces as `Except.error` where the source has no local handler and as an
empty result where it catches locally. -/

inductive FSEntry where
  | file (name : String) (readable : Bool) (content : String)
  | dir (name : String) (readable : Bool) (entries : List FSEntry)

def FSEntry.name : FSEntry → String
  | .file n _ _ => n
  | .dir n _ _ => n

def eAcces : String := "EACCES"
def eNotDir : String := "ENOTDIR"
def tsExtS : String := ".ts"
def testSuffixS : String := ".test.ts"
def testSetupS : String := "test.setup.ts"
def nodeModulesS : String := "node_modules"
def testsS : String := "tests"
def dotS : String := "."
def underS : String := "_"
def slashS : String := "/"
def emptyS : String := ""
def schemaTsS : String := "schema.ts"

/-- The skip condition of the root loop (lines 140-148). -/
def rootSkip (n : String) : Bool :=
  jsStartsWith n dotS || jsStartsWith n underS || n == nodeModulesS ||
    jsEndsWith n testSuffixS || n == testSetupS

/-- The skip condition of the subdirectory loop (lines 194-200). -/
def subSkip (n : String) : Bool :=
  n == testsS || jsEndsWith n testSuffixS || jsStartsWith n dotS

/-- `parseFile` (lines 231-280): reads the file and extracts; any read error
is caught locally and yields an empty function list. -/
def parseFile (e : FSEntry) (modulePath : String) : List FunctionInfo :=
  match e with
  | .file _ true c => extractFunctions c modulePath
  | _ => []

mutual

/-- `parseSubdirectory` (lines 179-229). The `readdirSync` call has no local
handler, so an unreadable directory raises out of the whole walk. -/
def parseSubdirectory : FSEntry → String → Except String ModuleInfo
  | .file _ _ _, _ => .error eNotDir
  | .dir _ false _, _ => .error eAcces
  | .dir nm true es, parentPath =>
    match parseSubEntries es parentPath with
    | .error err => .error err
    | .ok children => .ok ⟨nm, parentPath, [], children⟩

/-- The entry loop of `parseSubdirectory` (lines 192-226). -/
def parseSubEntries : List FSEntry → String → Except String (List ModuleInfo)
  | [], _ => .ok []
  | e :: rest, parentPath =>
    if subSkip e.name then parseSubEntries rest parentPath
    else
      match e with
      | .dir _ _ _ =>
        match parseSubdirectory e (parentPath ++ slashS ++ e.name) with
        | .error err => .error err
        | .ok sub =>
          match parseSubEntries rest parentPath with
          | .error err => .error err
          | .ok ms =>
            .ok (if sub.functions.isEmpty && sub.children.isEmpty then ms else sub :: ms)
      | .file nm _ _ =>
        if jsEndsWith nm tsExtS then
          let moduleName := jsReplaceFirst nm tsExtS emptyS
          let modulePath := parentPath ++ slashS ++ moduleName
          let fns := parseFile e modulePath
          match parseSubEntries rest parentPath with
          | .error err => .error err
          | .ok ms =>
            .ok (if fns.isEmpty then ms else ModuleInfo.mk moduleName modulePath fns [] :: ms)
        else parseSubEntries rest parentPath

end

/-- The entry loop of `parseConvexDirectory` (lines 138-174). -/
def parseConvexEntries : List FSEntry → Except String (List ModuleInfo)
  | [] => .ok []
  | e :: rest =>
    if rootSkip e.name then parseConvexEntries rest
    else
      match e with
      | .dir _ _ _ =>
        match parseSubdirectory e e.name with
        | .error err => .error err
        | .ok sub =>
          match parseConvexEntries rest with
          | .error err => .error err
          | .ok ms =>
            .ok (if sub.functions.isEmpty && sub.children.isEmpty then ms else sub :: ms)
      | .file nm _ _ =>
        if jsEndsWith nm tsExtS then
          let moduleName := jsReplaceFirst nm tsExtS emptyS
          let fns := parseFile e moduleName
          match parseConvexEntries rest with
          | .error err => .error err
          | .ok ms =>
            .ok (if fns.isEmpty then ms else ModuleInfo.mk moduleName moduleName fns [] :: ms)
        else parseConvexEntries rest

/-- `parseConvexDirectory` (lines 132-177): `readdirSync` on the root, no
local handler. -/
def parseConvexDirectory : FSEntry → Except String (List ModuleInfo)
  | .dir _ true es => parseConvexEntries es
  | .dir _ false _ => .error eAcces
  | .file _ _ _ => .error eNotDir

/-- `parseSchemaFile` (lines 378-404): an absent `schema.ts` yields an empty
table list; its read errors are caught locally. -/
def parseSchemaFile (root : FSEntry) : List TableInfo :=
  match root with
  | .dir _ _ es =>
    match es.find? (fun e => e.name == schemaTsS) with
    | some (.file _ true c) => scanTables c.data
    | _ => []
  | _ => []

/-- `parseSchema` (lines 102-121): one (re)build step. The whole body is in
a try/catch, so a raised walk error leaves the previous snapshot in place. -/
def parseSchema (root : FSEntry) (now : Nat) (st : WatcherState) : WatcherState :=
  match parseConvexDirectory root with
  | .error _ => st
  | .ok modules =>
    { schemaInfo := some { modules := modules, tables := parseSchemaFile root, lastUpdated := now } }

/-- `getSchema` (lines 98-100). -/
def getSchema (st : WatcherState) : Option SchemaInfo :=
  st.schemaInfo

/-- `start` (lines 56-89): the initial `parseSchema`, then the watcher
subscription (no further effect on the snapshot state). It resolves
unconditionally because `parseSchema` swallows its own errors. -/
def start (root : FSEntry) (now : Nat) (st : WatcherState) : Except String WatcherState :=
  .ok (parseSchema root now st)

/-- `countFunctions` (lines 123-130). -/
def countFunctions : List ModuleInfo → Nat
  | [] => 0
  | ⟨_, _, fs, cs⟩ :: rest => fs.length + countFunctions cs + countFunctions rest

/-- The tree invariant of claim C9: a node is non-empty, and each child's
path is the parent's path, a slash, and the child's name. -/
def nodeOk : ModuleInfo → Bool
  | ⟨_, p, fs, cs⟩ =>
    (!fs.isEmpty || !cs.isEmpty) &&
      cs.attach.all fun c => (c.1.path == p ++ slashS ++ c.1.name) && nodeOk c.1
termination_by m => sizeOf m
decreasing_by
  have h := List.sizeOf_lt_of_mem c.2
  simp only [ModuleInfo.mk.sizeOf_spec]
  omega

/-! ### Concrete inputs used to settle the claims. -/

def queryS : String := "query"
def mutationS : String := "mutation"
def actionS : String := "action"
def internalQueryS : String := "internalQuery"
def internalMutationS : String := "internalMutation"
def internalActionS : String := "internalAction"
def stringS : String := "string"
def colonS : String := ":"

/-- A well-formed exported declaration up to and including the opening brace
of the kind call, for an arbitrary function name. -/
def declCore (f : String) (tail : String) : String :=
  "export const " ++ f ++ " = query(\x7b" ++ tail

/-- `export const f = query({ args: { a: v.string() } })` for arbitrary
word-character names `f` and `a`. -/
def declReq (f a : String) : String :=
  declCore f (" args: \x7b " ++ a ++ ": v.string() \x7d \x7d)")

/-- `export const f = query({ args: { a: v.optional(v.string()) } })`. -/
def declOpt (f a : String) : String :=
  declCore f (" args: \x7b " ++ a ++ ": v.optional(v.string()) \x7d \x7d)")

/-- `export const f = K(\x7b\x7d)` for an arbitrary kind keyword `K` and
function name `f`, with no args block. -/
def declKind (k f : String) : String :=
  "export const " ++ f ++ " = " ++ k ++ "(\x7b\x7d)"

/-- `@param x - one of 'a', 'b'` for arbitrary quoted values, as a char list. -/
def paramLineL (a b : String) : List Char :=
  "@param x - one of '".data ++ a.data ++ "', '".data ++ b.data ++ ['\'']

/-- The description text the `@param` regex captures out of `paramLineL`. -/
def paramDescL (a b : String) : List Char :=
  "one of '".data ++ a.data ++ "', '".data ++ b.data ++ ['\'']

def xS : String := "x"

/-- A minimal file text containing one exported query with no args block. -/
def goodContent : String := "export const q = query(\x7b\x7d)"

def convexS : String := "convex"
def fooTsS : String := "foo.ts"
def fooS : String := "foo"
def fooTestTsS : String := "foo.test.ts"
def goodTsS : String := "good.ts"
def badS : String := "bad"
def qS : String := "q"

/-- Root tree with a `tests` directory at the root: the root loop has no
`tests` rule, so this directory is walked. -/
def c5tree : FSEntry :=
  .dir convexS true [.dir testsS true [.file fooTsS true goodContent]]

/-- Root tree with one readable function file and one unreadable
subdirectory. -/
def c7tree : FSEntry :=
  .dir convexS true [.file goodTsS true goodContent, .dir badS false []]

/-- An unreadable root directory. -/
def c6root : FSEntry :=
  .dir convexS false []

/-- A minimal readable root with one function file, for the C9 witness. -/
def c9tree : FSEntry :=
  .dir convexS true [.file fooTsS true goodContent]

/-- Character-level normal form of `declCore f (" args: \x7b " ++ a ++ mid')`
followed by arbitrary text: the shape all C1 evaluation lemmas work on.
`mid` is the argument-value text between `a :`-ish and the first closing
brace; the trailing `\x7d \x7d)` closes the args object and the call. -/
def declCanon (fd ad mid postd : List Char) : List Char :=
  ("export const ").data ++
    (fd ++ (' ' :: '=' :: ' ' :: 'q' :: 'u' :: 'e' :: 'r' :: 'y' :: '(' :: '\x7b' :: ' ' ::
      ('a' :: 'r' :: 'g' :: 's' :: ':' :: ' ' :: '\x7b' :: ' ' ::
        (ad ++ (mid ++ ('\x7d' :: ' ' :: '\x7d' :: ')' :: postd))))))

/-! ## Lemma layer -/

/-! ### Character classes -/

theorem ne_of_wordChar {c d : Char} (h : isWordChar c = true) (hd : isWordChar d = false) :
    c ≠ d := by
  intro he
  rw [he, hd] at h
  exact Bool.false_ne_true h

theorem not_ws_of_wordChar {c : Char} (h : isWordChar c = true) : isWs c = false := by
  cases hws : isWs c with
  | false => rfl
  | true =>
    exfalso
    have hc := hws
    simp only [isWs, Bool.or_eq_true, decide_eq_true_eq, or_assoc] at hc
    rcases hc with h1 | h1 | h1 | h1 <;> (subst h1; exact absurd h (by decide))

/-! ### takeWhile / dropWhile over a region satisfying the predicate -/

theorem takeWhile_app_all {p : Char → Bool} {xs : List Char} (h : ∀ c ∈ xs, p c = true)
    (ys : List Char) : List.takeWhile p (xs ++ ys) = xs ++ List.takeWhile p ys := by
  induction xs with
  | nil => simp
  | cons c cs ih =>
    have hc : p c = true := h c (List.mem_cons_self c cs)
    have ihh := ih (fun d hd => h d (List.mem_cons_of_mem c hd))
    simp [List.takeWhile_cons, hc, ihh]

theorem dropWhile_app_all {p : Char → Bool} {xs : List Char} (h : ∀ c ∈ xs, p c = true)
    (ys : List Char) : List.dropWhile p (xs ++ ys) = List.dropWhile p ys := by
  induction xs with
  | nil => simp
  | cons c cs ih =>
    have hc : p c = true := h c (List.mem_cons_self c cs)
    have ihh := ih (fun d hd => h d (List.mem_cons_of_mem c hd))
    simp [List.dropWhile_cons, hc, ihh]

theorem dropWhile_suffix_of (p : Char → Bool) (l : List Char) :
    List.dropWhile p l <:+ l := by
  induction l with
  | nil => simp
  | cons c cs ih =>
    cases hc : p c with
    | true =>
      have he : List.dropWhile p (c :: cs) = List.dropWhile p cs := by
        simp [List.dropWhile_cons, hc]
      rw [he]
      exact ih.trans (List.suffix_cons c cs)
    | false =>
      have he : List.dropWhile p (c :: cs) = c :: cs := by
        simp [List.dropWhile_cons, hc]
      rw [he]

/-! ### Decomposition facts for the primitives -/

theorem stripLit_eq {p l r : List Char} (h : stripLit p l = some r) : l = p ++ r := by
  induction p generalizing l with
  | nil => simpa [stripLit] using h
  | cons a ps ih =>
    cases l with
    | nil => simp [stripLit] at h
    | cons c cs =>
      rw [stripLit] at h
      by_cases hc : c = a
      · rw [if_pos hc] at h
        subst hc
        simpa using ih h
      · rw [if_neg hc] at h
        exact absurd h (by simp)

theorem stripLit_of_eq (p r : List Char) : stripLit p (p ++ r) = some r := by
  induction p with
  | nil => simp [stripLit]
  | cons a ps ih => simp [stripLit, ih]

theorem word1_eq {l w r : List Char} (h : word1 l = some (w, r)) :
    l = w ++ r ∧ w ≠ [] := by
  cases l with
  | nil => simp [word1] at h
  | cons c cs =>
    by_cases hc : isWordChar c = true
    · rw [word1] at h
      simp only [if_pos hc, Option.some.injEq, Prod.mk.injEq] at h
      obtain ⟨hw, hr⟩ := h
      subst hw
      subst hr
      exact ⟨by simp [List.takeWhile_append_dropWhile], by simp⟩
    · simp [word1, hc] at h

theorem word1_of_app {w t : List Char} (hne : w ≠ []) (hw : ∀ c ∈ w, isWordChar c = true)
    (ht : ∀ x ∈ t.head?, isWordChar x = false) : word1 (w ++ t) = some (w, t) := by
  cases w with
  | nil => exact absurd rfl hne
  | cons c cs =>
    have hc : isWordChar c = true := hw c (List.mem_cons_self c cs)
    have hcs : ∀ d ∈ cs, isWordChar d = true := fun d hd => hw d (List.mem_cons_of_mem c hd)
    have ht' : List.takeWhile isWordChar t = [] ∧ List.dropWhile isWordChar t = t := by
      cases t with
      | nil => simp
      | cons x xs =>
        have hx : isWordChar x = false := ht x (by simp)
        constructor <;> simp [List.takeWhile_cons, List.dropWhile_cons, hx]
    simp [word1, hc, takeWhile_app_all hcs, dropWhile_app_all hcs, ht'.1, ht'.2]

theorem expectChar_eq {a : Char} {l r : List Char} (h : expectChar a l = some r) :
    l = a :: r := by
  cases l with
  | nil => simp [expectChar] at h
  | cons c cs =>
    by_cases hc : c = a
    · subst hc
      simp [expectChar] at h
      rw [h]
    · simp [expectChar, hc] at h

theorem ws1_suffix {l r : List Char} (h : ws1 l = some r) :
    r <:+ l ∧ r.length < l.length := by
  cases l with
  | nil => simp [ws1] at h
  | cons c cs =>
    by_cases hc : isWs c = true
    · rw [ws1] at h
      simp only [if_pos hc, Option.some.injEq] at h
      subst h
      refine ⟨(dropWhile_suffix_of isWs cs).trans (List.suffix_cons c cs), ?_⟩
      have := (dropWhile_suffix_of isWs cs).length_le
      simp only [List.length_cons]
      omega
    · simp [ws1, hc] at h

theorem wsSkip_suffix (l : List Char) : wsSkip l <:+ l :=
  dropWhile_suffix_of isWs l

theorem wsSkip_of_head {l : List Char} (h : ∀ x ∈ l.head?, isWs x = false) :
    wsSkip l = l := by
  cases l with
  | nil => rfl
  | cons c cs =>
    have hc : isWs c = false := h c (by simp)
    simp [wsSkip, List.dropWhile_cons, hc]

theorem dashSkip_suffix (l : List Char) : dashSkip l <:+ l := by
  rw [dashSkip.eq_def]
  split
  · exact List.suffix_cons _ _
  · exact List.suffix_rfl

/-! ### Matcher decomposition lemmas: each successful match consumes a
nonempty chunk, leaving a proper suffix. -/

theorem kindTail_suffix {k l r3 : List Char} (h : kindTail k l = some r3) : r3 <:+ l := by
  rw [kindTail, Option.bind_eq_some] at h
  obtain ⟨r1, h1, h⟩ := h
  rw [Option.bind_eq_some] at h
  obtain ⟨r2, h2, h3⟩ := h
  have s1 : r1 <:+ l := (stripLit_eq h1) ▸ ⟨k, rfl⟩
  have s2 : r2 <:+ wsSkip r1 := (expectChar_eq h2) ▸ List.suffix_cons _ _
  have s3 : r3 <:+ wsSkip r2 := (expectChar_eq h3) ▸ List.suffix_cons _ _
  exact ((s3.trans (wsSkip_suffix r2)).trans (s2.trans (wsSkip_suffix r1))).trans s1

theorem tryKinds_spec {ks : List (List Char)} {l k r : List Char}
    (h : tryKinds ks l = some (k, r)) : k ∈ ks ∧ r <:+ l := by
  induction ks with
  | nil => simp [tryKinds] at h
  | cons k0 ks ih =>
    rw [tryKinds] at h
    rcases h0 : kindTail k0 l with _ | r3
    · rw [h0] at h
      obtain ⟨hk, hs⟩ := ih h
      exact ⟨List.mem_cons_of_mem k0 hk, hs⟩
    · rw [h0] at h
      simp only [Option.some.injEq, Prod.mk.injEq] at h
      obtain ⟨hk, hr⟩ := h
      subst hk
      subst hr
      exact ⟨List.mem_cons_self _ _, kindTail_suffix h0⟩

theorem matchExportAt_spec {l nm k r : List Char}
    (h : matchExportAt l = some (nm, k, r)) :
    r <:+ l ∧ r.length < l.length ∧ k ∈ kindsL := by
  rw [matchExportAt, Option.bind_eq_some] at h
  obtain ⟨r1, h1, h⟩ := h
  rw [Option.bind_eq_some] at h
  obtain ⟨r2, h2, h⟩ := h
  rw [Option.bind_eq_some] at h
  obtain ⟨r3, h3, h⟩ := h
  rw [Option.bind_eq_some] at h
  obtain ⟨r4, h4, h⟩ := h
  rw [Option.bind_eq_some] at h
  obtain ⟨p, h5, h⟩ := h
  rw [Option.bind_eq_some] at h
  obtain ⟨r6, h6, h⟩ := h
  rw [Option.map_eq_some'] at h
  obtain ⟨q, h7, hq⟩ := h
  have hnm : p.1 = nm := congrArg Prod.fst hq
  have hq2 : q = (k, r) := congrArg Prod.snd hq
  subst hq2
  obtain ⟨hkin, s7⟩ := tryKinds_spec h7
  have s6 : r6 <:+ wsSkip p.2 := (expectChar_eq h6) ▸ List.suffix_cons _ _
  obtain ⟨heq5, hne5⟩ := word1_eq h5
  have s5 : p.2 <:+ r4 := heq5 ▸ ⟨p.1, rfl⟩
  obtain ⟨s4, len4⟩ := ws1_suffix h4
  have s3 : r3 <:+ r2 := (stripLit_eq h3) ▸ ⟨kwConst, rfl⟩
  obtain ⟨s2, len2⟩ := ws1_suffix h2
  have s1 : r1 <:+ l := (stripLit_eq h1) ▸ ⟨kwExport, rfl⟩
  have sfin : r <:+ l :=
    (((((s7.trans (wsSkip_suffix r6)).trans s6).trans (wsSkip_suffix p.2)).trans
      (s5.trans s4)).trans (s3.trans s2)).trans s1
  refine ⟨sfin, ?_, hkin⟩
  have l7 := s7.length_le
  have l6 := s6.length_le
  have l6' := (wsSkip_suffix r6).length_le
  have l5w := (wsSkip_suffix p.2).length_le
  have l5 := s5.length_le
  have l3 := s3.length_le
  have l1 : r1.length < l.length := by
    have hlen := congrArg List.length (stripLit_eq h1)
    simp [kwExport] at hlen
    omega
  omega

theorem matchArgNoOpt_spec {nm r3 : List Char} {a : List Char × Bool × List Char}
    {r : List Char} (h : matchArgNoOpt nm r3 = some (a, r)) :
    r <:+ r3 ∧ r.length < r3.length := by
  rw [matchArgNoOpt, Option.bind_eq_some] at h
  obtain ⟨r4, h1, h⟩ := h
  rw [Option.map_eq_some'] at h
  obtain ⟨q, h2, hq⟩ := h
  have hr : q.2 = r := congrArg Prod.snd hq
  subst hr
  obtain ⟨heq2, -⟩ := word1_eq (l := r4) (w := q.1) (r := q.2) (by rw [h2])
  have s2 : q.2 <:+ r4 := heq2 ▸ ⟨q.1, rfl⟩
  have s1 : r4 <:+ r3 := (stripLit_eq h1) ▸ ⟨vdot, rfl⟩
  refine ⟨s2.trans s1, ?_⟩
  have l2 := s2.length_le
  have l1 : r4.length < r3.length := by
    have hlen := congrArg List.length (stripLit_eq h1)
    simp [vdot] at hlen
    omega
  omega

theorem matchArgAt_spec {l : List Char} {a : List Char × Bool × List Char} {r : List Char}
    (h : matchArgAt l = some (a, r)) : r <:+ l ∧ r.length < l.length := by
  rw [matchArgAt, Option.bind_eq_some] at h
  obtain ⟨p, h1, h⟩ := h
  rw [Option.bind_eq_some] at h
  obtain ⟨r2, h2, h⟩ := h
  obtain ⟨heq1, hne1⟩ := word1_eq h1
  have s1 : p.2 <:+ l := heq1 ▸ ⟨p.1, rfl⟩
  have l1 : p.2.length < l.length := by
    have hlen := congrArg List.length heq1
    rcases hw : p.1 with _ | ⟨c, nm'⟩
    · exact absurd hw hne1
    · rw [hw] at hlen
      simp at hlen
      omega
  have s2 : r2 <:+ p.2 := (expectChar_eq h2) ▸ List.suffix_cons _ _
  have l2 : r2.length < p.2.length := by
    have hlen := congrArg List.length (expectChar_eq h2)
    simp at hlen
    omega
  have l3 := (wsSkip_suffix r2).length_le
  rcases hin : (stripLit optWrap (wsSkip r2)).bind (fun r4 => (stripLit vdot r4).bind word1)
      with _ | q
  · rw [hin] at h
    obtain ⟨sn, ln⟩ := matchArgNoOpt_spec h
    exact ⟨((sn.trans (wsSkip_suffix r2)).trans s2).trans s1, by
      have := sn.length_le
      omega⟩
  · rw [hin] at h
    simp only [Option.some.injEq, Prod.mk.injEq] at h
    obtain ⟨-, hr⟩ := h
    subst hr
    rw [Option.bind_eq_some] at hin
    obtain ⟨r4, h4, hin⟩ := hin
    rw [Option.bind_eq_some] at hin
    obtain ⟨r5, h5, h6⟩ := hin
    obtain ⟨heq6, -⟩ := word1_eq (l := r5) (w := q.1) (r := q.2) (by rw [h6])
    have s6 : q.2 <:+ r5 := heq6 ▸ ⟨q.1, rfl⟩
    have s5 : r5 <:+ r4 := (stripLit_eq h5) ▸ ⟨vdot, rfl⟩
    have s4 : r4 <:+ wsSkip r2 := (stripLit_eq h4) ▸ ⟨optWrap, rfl⟩
    have l4 : r4.length < (wsSkip r2).length := by
      have hlen := congrArg List.length (stripLit_eq h4)
      simp [optWrap] at hlen
      omega
    refine ⟨(((s6.trans s5).trans s4).trans (wsSkip_suffix r2)).trans (s2.trans s1), ?_⟩
    have := s6.length_le
    have := s5.length_le
    omega

theorem matchQuoteAt_spec {l inner r : List Char}
    (h : matchQuoteAt l = some (inner, r)) : r <:+ l ∧ r.length < l.length := by
  cases l with
  | nil => simp [matchQuoteAt] at h
  | cons c cs =>
    simp only [matchQuoteAt] at h
    by_cases hc : c = '\''
    · rw [if_pos hc] at h
      split at h
      · rename_i q r2 hd
        by_cases hi : (List.takeWhile (fun x => x != '\'') cs).isEmpty = true
        · rw [if_pos hi] at h
          exact absurd h (by simp)
        · rw [if_neg hi] at h
          have hr : r2 = r := congrArg Prod.snd (Option.some.inj h)
          have hsd : q :: r2 <:+ cs := hd ▸ dropWhile_suffix_of _ cs
          have hr2 : r2 <:+ q :: r2 := List.suffix_cons q r2
          rw [← hr]
          refine ⟨(hr2.trans hsd).trans (List.suffix_cons _ cs), ?_⟩
          have := hsd.length_le
          simp only [List.length_cons] at this ⊢
          omega
      · exact absurd h (by simp)
    · rw [if_neg hc] at h
      exact absurd h (by simp)

theorem matchParamAt_spec {l : List Char} {a : List Char × List Char} {r : List Char}
    (h : matchParamAt l = some (a, r)) : r <:+ l ∧ r.length < l.length := by
  rw [matchParamAt, Option.bind_eq_some] at h
  obtain ⟨r1, h1, h⟩ := h
  rw [Option.bind_eq_some] at h
  obtain ⟨r2, h2, h⟩ := h
  rw [Option.map_eq_some'] at h
  obtain ⟨p, h3, hq⟩ := h
  have hr : List.dropWhile (fun x => x != '@') (wsSkip (dashSkip (wsSkip p.2))) = r :=
    congrArg Prod.snd hq
  subst hr
  have s1 : r1 <:+ l := (stripLit_eq h1) ▸ ⟨atParam, rfl⟩
  have l1 : r1.length < l.length := by
    have hlen := congrArg List.length (stripLit_eq h1)
    simp [atParam] at hlen
    omega
  obtain ⟨s2, l2⟩ := ws1_suffix h2
  obtain ⟨heq3, -⟩ := word1_eq h3
  have s3 : p.2 <:+ r2 := heq3 ▸ ⟨p.1, rfl⟩
  have s4 := wsSkip_suffix p.2
  have s5 := dashSkip_suffix (wsSkip p.2)
  have s6 := wsSkip_suffix (dashSkip (wsSkip p.2))
  have s7 := dropWhile_suffix_of (fun x => x != '@') (wsSkip (dashSkip (wsSkip p.2)))
  have sall := ((((s7.trans s6).trans s5).trans s4).trans (s3.trans s2)).trans s1
  refine ⟨sall, ?_⟩
  have := s7.length_le
  have := s6.length_le
  have := s5.length_le
  have := s4.length_le
  have := s3.length_le
  omega

/-! ### scanSkip: derived equations -/

theorem drop_of_suffix {r l : List Char} (h : r <:+ l) :
    List.drop (l.length - r.length) l = r := by
  obtain ⟨t, rfl⟩ := h
  have harith : (t ++ r).length - r.length = t.length := by simp
  rw [harith, List.drop_left]

theorem scanSkip_drop {α : Type} (m : List Char → Option (α × List Char)) :
    ∀ (l : List Char) (k : Nat), scanSkip m l k = scanSkip m (List.drop k l) 0 := by
  intro l
  induction l with
  | nil => intro k; simp [scanSkip]
  | cons c cs ih =>
    intro k
    cases k with
    | zero => simp
    | succ k' =>
      simp only [scanSkip, List.drop_succ_cons]
      exact ih k'

theorem scanSkip_match {α : Type} {m : List Char → Option (α × List Char)}
    {l rest : List Char} {a : α} (h : m l = some (a, rest))
    (hs : rest <:+ l) (hl : rest.length < l.length) :
    scanSkip m l 0 = a :: scanSkip m rest 0 := by
  cases l with
  | nil => simp at hl
  | cons c cs =>
    have hle : rest.length ≤ cs.length := by
      simp only [List.length_cons] at hl
      omega
    have hcs : rest <:+ cs := by
      rcases List.suffix_cons_iff.mp hs with h1 | h1
      · exfalso
        have := congrArg List.length h1
        simp at this
        omega
      · exact h1
    have harith : (c :: cs).length - rest.length - 1 = cs.length - rest.length := by
      simp only [List.length_cons]
      omega
    calc scanSkip m (c :: cs) 0
        = a :: scanSkip m cs ((c :: cs).length - rest.length - 1) := by
          simp only [scanSkip, h]
      _ = a :: scanSkip m (List.drop (cs.length - rest.length) cs) 0 := by
          rw [harith, scanSkip_drop]
      _ = a :: scanSkip m rest 0 := by rw [drop_of_suffix hcs]

theorem scanSkip_nomatch {α : Type} {m : List Char → Option (α × List Char)}
    {c : Char} {cs : List Char} (h : m (c :: cs) = none) :
    scanSkip m (c :: cs) 0 = scanSkip m cs 0 := by
  simp only [scanSkip, h]

/-! ### scanExportsAux: derived equations -/

theorem scanExportsAux_drop :
    ∀ (l pre : List Char) (k : Nat),
      scanExportsAux pre l k = scanExportsAux (pre ++ List.take k l) (List.drop k l) 0 := by
  intro l
  induction l with
  | nil => intro pre k; simp [scanExportsAux]
  | cons c cs ih =>
    intro pre k
    cases k with
    | zero => simp
    | succ k' =>
      simp only [scanExportsAux, List.take_succ_cons, List.drop_succ_cons]
      rw [ih (pre ++ [c]) k']
      simp

theorem scanExportsAux_match {l rest nm kd : List Char} (pre : List Char)
    (h : matchExportAt l = some (nm, kd, rest)) :
    scanExportsAux pre l 0 =
      ⟨nm, kd, pre, l⟩ ::
        scanExportsAux (pre ++ List.take (l.length - rest.length) l) rest 0 := by
  obtain ⟨hs, hl, -⟩ := matchExportAt_spec h
  cases l with
  | nil => simp at hl
  | cons c cs =>
    have hle : rest.length ≤ cs.length := by
      simp only [List.length_cons] at hl
      omega
    have hcs : rest <:+ cs := by
      rcases List.suffix_cons_iff.mp hs with h1 | h1
      · exfalso
        have := congrArg List.length h1
        simp at this
        omega
      · exact h1
    have harith : (c :: cs).length - rest.length - 1 = cs.length - rest.length := by
      simp only [List.length_cons]
      omega
    have htake : List.take ((c :: cs).length - rest.length) (c :: cs) =
        c :: List.take (cs.length - rest.length) cs := by
      have h1 : (c :: cs).length - rest.length = (cs.length - rest.length) + 1 := by
        simp only [List.length_cons]
        omega
      rw [h1, List.take_succ_cons]
    calc scanExportsAux pre (c :: cs) 0
        = ⟨nm, kd, pre, c :: cs⟩ ::
            scanExportsAux (pre ++ [c]) cs ((c :: cs).length - rest.length - 1) := by
          simp only [scanExportsAux, h]
      _ = ⟨nm, kd, pre, c :: cs⟩ ::
            scanExportsAux ((pre ++ [c]) ++ List.take (cs.length - rest.length) cs)
              (List.drop (cs.length - rest.length) cs) 0 := by
          rw [harith, scanExportsAux_drop]
      _ = ⟨nm, kd, pre, c :: cs⟩ ::
            scanExportsAux (pre ++ List.take ((c :: cs).length - rest.length) (c :: cs))
              rest 0 := by
          rw [drop_of_suffix hcs, htake]
          simp

theorem scanExportsAux_nomatch {c : Char} {cs : List Char} (pre : List Char)
    (h : matchExportAt (c :: cs) = none) :
    scanExportsAux pre (c :: cs) 0 = scanExportsAux (pre ++ [c]) cs 0 := by
  simp only [scanExportsAux, h]

/-- Every raw match the export scan produces comes from a successful
`matchExportAt` on its own post-match window. -/
theorem scanExportsAux_mem :
    ∀ (l pre : List Char) (k : Nat) (x : RawExport), x ∈ scanExportsAux pre l k →
      ∃ rest, matchExportAt x.after = some (x.name, x.kind, rest) := by
  intro l
  induction l with
  | nil =>
    intro pre k x hx
    simp [scanExportsAux] at hx
  | cons c cs ih =>
    intro pre k x hx
    cases k with
    | succ k' =>
      simp only [scanExportsAux] at hx
      exact ih _ _ x hx
    | zero =>
      rcases hm : matchExportAt (c :: cs) with _ | ⟨nm, kd, rest⟩
      · simp only [scanExportsAux, hm] at hx
        exact ih _ _ x hx
      · simp only [scanExportsAux, hm] at hx
        rcases List.mem_cons.mp hx with hx | hx
        · subst hx
          exact ⟨rest, hm⟩
        · exact ih _ _ x hx

/-! ## Claim theorems -/

/-- C2: whenever the pagination-options marker occurs anywhere in the
post-match window, `extractArgsFromPosition` returns exactly the explicitly
declared arguments followed by one synthetic `paginationOpts` argument of the
fixed coarse type and description, with `optional = false`, regardless of the
JSDoc block and of whether any explicit arguments exist. -/
theorem c2_pagination_appended :
    ∀ (afterStart jsdoc : List Char), hasSub afterStart pagMarker = true →
      extractArgsFromPosition afterStart jsdoc =
        explicitArgs afterStart jsdoc ++
          [{ name := paginationOptsS, type := paginationTypeS, optional := false,
             description := some paginationDescS, enumValues := none }] := by
  intro afterStart jsdoc h
  simp only [extractArgsFromPosition, h, if_true]
  rfl

/-- Witness for C2 at a concrete window consisting of the marker itself. -/
theorem c2_pagination_appended_witness :
    hasSub pagMarker pagMarker = true ∧
      extractArgsFromPosition pagMarker [] =
        explicitArgs pagMarker [] ++
          [{ name := paginationOptsS, type := paginationTypeS, optional := false,
             description := some paginationDescS, enumValues := none }] :=
  ⟨by decide, c2_pagination_appended pagMarker [] (by decide)⟩

/-- C8: extraction is total: a text with zero export matches yields an empty
function list, and the table extractor on a directory with no `schema.ts`
yields an empty table list; neither case is an error. -/
theorem c8_total :
    (∀ (content mp : String), scanExports content.data = [] →
      extractFunctions content mp = []) ∧
    (∀ (nm : String) (r : Bool) (es : List FSEntry), (∀ e ∈ es, e.name ≠ schemaTsS) →
      parseSchemaFile (.dir nm r es) = []) := by
  constructor
  · intro content mp h
    rw [extractFunctions, h]
    rfl
  · intro nm r es h
    have hf : es.find? (fun e => e.name == schemaTsS) = none := by
      rw [List.find?_eq_none]
      intro e he
      simp [h e he]
    simp only [parseSchemaFile, hf]

/-- Witness for C8: the empty file text and a schema-less directory. -/
theorem c8_total_witness :
    (scanExports emptyS.data = [] ∧ extractFunctions emptyS convexS = []) ∧
      parseSchemaFile (.dir convexS true []) = [] :=
  ⟨⟨by decide, c8_total.1 emptyS convexS (by decide)⟩,
    c8_total.2 convexS true [] (by simp)⟩

/-- A successful build step preserves an installed snapshot. -/
theorem parseSchema_keeps_some (root : FSEntry) (now : Nat) (st : WatcherState)
    (h : st.schemaInfo.isSome = true) : (parseSchema root now st).schemaInfo.isSome = true := by
  rcases hw : parseConvexDirectory root with err | ms
  · simpa [parseSchema, hw] using h
  · simp [parseSchema, hw]

/-- Folding build steps from the empty state ends with no snapshot exactly
when every individual step's walk raised. -/
theorem foldl_parseSchema_none_iff :
    ∀ (builds : List (FSEntry × Nat)) (st : WatcherState),
      (builds.foldl (fun st p => parseSchema p.1 p.2 st) st).schemaInfo = none ↔
        st.schemaInfo = none ∧ ∀ p ∈ builds, ∃ e, parseConvexDirectory p.1 = .error e := by
  intro builds
  induction builds with
  | nil =>
    intro st
    simp
  | cons b bs ih =>
    intro st
    rw [List.foldl_cons, ih]
    have hstep : (parseSchema b.1 b.2 st).schemaInfo = none ↔
        st.schemaInfo = none ∧ ∃ e, parseConvexDirectory b.1 = .error e := by
      rcases hw : parseConvexDirectory b.1 with err | ms
      · simp [parseSchema, hw]
      · simp [parseSchema, hw]
    rw [hstep]
    constructor
    · rintro ⟨⟨h1, h2⟩, h3⟩
      exact ⟨h1, fun p hp => by
        rcases List.mem_cons.mp hp with hp | hp
        · subst hp; exact h2
        · exact h3 p hp⟩
    · rintro ⟨h1, h2⟩
      exact ⟨⟨h1, h2 b (List.mem_cons_self b bs)⟩, fun p hp => h2 p (List.mem_cons_of_mem b hp)⟩

/-- C10: a rebuild whose walk raises leaves the installed snapshot exactly
unchanged, and starting from the empty state, the snapshot is still absent
after a sequence of builds exactly when every one of them failed — so
`getSchema` is `null` only if no build ever completed. -/
theorem c10_snapshot :
    (∀ (root : FSEntry) (now : Nat) (st : WatcherState) (e : String),
      parseConvexDirectory root = .error e → parseSchema root now st = st) ∧
    (∀ builds : List (FSEntry × Nat),
      getSchema (builds.foldl (fun st p => parseSchema p.1 p.2 st) ⟨none⟩) = none ↔
        ∀ p ∈ builds, ∃ e, parseConvexDirectory p.1 = .error e) := by
  constructor
  · intro root now st e h
    simp [parseSchema, h]
  · intro builds
    rw [getSchema, foldl_parseSchema_none_iff]
    simp

/-- Witness for C10: an unreadable root leaves a previously installed
snapshot in place, and a single failed build leaves `getSchema` at `null`. -/
theorem c10_snapshot_witness :
    parseSchema c6root 5 ⟨some ⟨[], [], 0⟩⟩ = ⟨some ⟨[], [], 0⟩⟩ ∧
      getSchema ([(c6root, 1)].foldl (fun st p => parseSchema p.1 p.2 st) ⟨none⟩) = none :=
  ⟨c10_snapshot.1 c6root 5 ⟨some ⟨[], [], 0⟩⟩ eAcces rfl,
    (c10_snapshot.2 [(c6root, 1)]).mpr (by
      intro p hp
      rw [List.mem_singleton] at hp
      subst hp
      exact ⟨eAcces, rfl⟩)⟩

/-- C6 counterexample: with an unreadable root, `start` completes normally
(`.ok`) and no snapshot is ever produced — the failure is not surfaced to the
caller, contradicting the claim that it is a fatal startup error. -/
theorem c6_counterexample :
    start c6root 0 ⟨none⟩ = .ok ⟨none⟩ ∧ getSchema ⟨none⟩ = none :=
  ⟨rfl, rfl⟩

/-- C6 amended: if the root directory is unreadable, the walk error is caught
inside the build step (and logged): `start` resolves normally with the state
unchanged, so at startup `getSchema` remains `null`; no error reaches the
caller. -/
theorem c6_start_swallows :
    ∀ (nm : String) (es : List FSEntry) (now : Nat) (st : WatcherState),
      start (.dir nm false es) now st = .ok st := by
  intro nm es now st
  rfl

/-- C7 counterexample: a walk over a root with one readable function file and
one unreadable subdirectory aborts entirely with the subdirectory's error —
the readable file's module is not produced, contradicting "a per-entry
failure is never fatal to the whole walk". -/
theorem c7_counterexample : parseConvexDirectory c7tree = .error eAcces := by
  have h1 : rootSkip goodTsS = false := by decide
  have h2 : jsEndsWith goodTsS tsExtS = true := by decide
  have h3 : rootSkip badS = false := by decide
  have h4 : parseSubdirectory (.dir badS false []) badS = .error eAcces := by
    simp [parseSubdirectory]
  simp [c7tree, parseConvexDirectory, parseConvexEntries, FSEntry.name, h1, h2, h3, h4]

/-- C7 amended: an unreadable individual file is caught locally — it
contributes nothing and the walk continues — but an unreadable subdirectory
aborts the entire walk (at the root and inside subdirectories alike) with an
error that only the build-level handler catches. -/
theorem c7_per_entry :
    (∀ (n c : String) (es : List FSEntry) (p : String),
        parseSubEntries (.file n false c :: es) p = parseSubEntries es p) ∧
    (∀ (n c : String) (es : List FSEntry),
        parseConvexEntries (.file n false c :: es) = parseConvexEntries es) ∧
    (∀ (n : String) (cs es : List FSEntry) (p : String), subSkip n = false →
        parseSubEntries (.dir n false cs :: es) p = .error eAcces) ∧
    (∀ (n : String) (cs es : List FSEntry), rootSkip n = false →
        parseConvexEntries (.dir n false cs :: es) = .error eAcces) := by
  refine ⟨?_, ?_, ?_, ?_⟩
  · intro n c es p
    by_cases hs : subSkip n = true
    · simp [parseSubEntries, FSEntry.name, hs]
    · by_cases he : jsEndsWith n tsExtS = true
      · rcases hres : parseSubEntries es p with err | ms
        · simp [parseSubEntries, FSEntry.name, hs, he, parseFile, hres]
        · simp [parseSubEntries, FSEntry.name, hs, he, parseFile, hres]
      · simp [parseSubEntries, FSEntry.name, hs, he]
  · intro n c es
    by_cases hs : rootSkip n = true
    · simp [parseConvexEntries, FSEntry.name, hs]
    · by_cases he : jsEndsWith n tsExtS = true
      · rcases hres : parseConvexEntries es with err | ms
        · simp [parseConvexEntries, FSEntry.name, hs, he, parseFile, hres]
        · simp [parseConvexEntries, FSEntry.name, hs, he, parseFile, hres]
      · simp [parseConvexEntries, FSEntry.name, hs, he]
  · intro n cs es p h
    have hd : parseSubdirectory (.dir n false cs) (p ++ slashS ++ n) = .error eAcces := by
      simp [parseSubdirectory]
    simp [parseSubEntries, FSEntry.name, h, hd]
  · intro n cs es h
    have hd : parseSubdirectory (.dir n false cs) n = .error eAcces := by
      simp [parseSubdirectory]
    simp [parseConvexEntries, FSEntry.name, h, hd]

/-- Witness for C7's amended statement at concrete entries. -/
theorem c7_per_entry_witness :
    parseSubEntries [.file goodTsS false emptyS] convexS = parseSubEntries [] convexS ∧
      parseSubEntries [.dir badS false []] convexS = .error eAcces ∧
      parseConvexEntries [.dir badS false []] = .error eAcces :=
  ⟨c7_per_entry.1 goodTsS emptyS [] convexS,
    c7_per_entry.2.2.1 badS [] [] convexS (by decide),
    c7_per_entry.2.2.2 badS [] [] (by decide)⟩

/-- C5 counterexample: the two skip lists differ by depth. A directory named
`tests` at the ROOT is not skipped (the root loop has no `tests` rule), so a
file under a root-level `tests` directory does appear in the produced tree —
contradicting "a file located under a directory named tests never appears in
any produced ModuleInfo at any nesting level". -/
theorem c5_counterexample :
    parseConvexDirectory c5tree =
      .ok [ModuleInfo.mk testsS testsS []
        [ModuleInfo.mk fooS (testsS ++ slashS ++ fooS)
          [⟨qS, testsS ++ slashS ++ fooS ++ colonS ++ qS, queryS, [], none⟩] []]] := by
  have hx : extractFunctions goodContent (testsS ++ slashS ++ fooS) =
      [⟨qS, testsS ++ slashS ++ fooS ++ colonS ++ qS, queryS, [], none⟩] := by decide
  have h1 : rootSkip testsS = false := by decide
  have h2 : subSkip fooTsS = false := by decide
  have h3 : jsEndsWith fooTsS tsExtS = true := by decide
  have h4 : jsReplaceFirst fooTsS tsExtS emptyS = fooS := by decide
  simp [c5tree, parseConvexDirectory, parseConvexEntries, parseSubdirectory, parseSubEntries,
    parseFile, FSEntry.name, ModuleInfo.functions, ModuleInfo.children, h1, h2, h3, h4, hx]

/-- C5 amended: an entry whose name matches the root skip list (leading `.`
or `_`, `node_modules`, `*.test.ts`, `test.setup.ts`) is skipped at the root;
an entry whose name matches the subdirectory skip list (`tests`, `*.test.ts`,
leading `.`) is skipped inside subdirectories. A `*.test.ts` name is in both
lists, so such files never appear at any depth; `tests` directories are
skipped only below the root, and `_`/`node_modules`/`test.setup.ts` only at
the root. -/
theorem c5_skip_rules :
    (∀ (e : FSEntry) (es : List FSEntry), rootSkip e.name = true →
      parseConvexEntries (e :: es) = parseConvexEntries es) ∧
    (∀ (e : FSEntry) (es : List FSEntry) (p : String), subSkip e.name = true →
      parseSubEntries (e :: es) p = parseSubEntries es p) ∧
    (∀ n : String, jsEndsWith n testSuffixS = true → rootSkip n = true ∧ subSkip n = true) := by
  refine ⟨?_, ?_, ?_⟩
  · intro e es h
    simp [parseConvexEntries, h]
  · intro e es p h
    simp [parseSubEntries, h]
  · intro n h
    constructor
    · simp [rootSkip, h]
    · simp [subSkip, h]

/-- Witness for C5's amended statement at concrete entries. -/
theorem c5_skip_rules_witness :
    parseConvexEntries [.file testSetupS true emptyS] = parseConvexEntries [] ∧
      parseSubEntries [.dir testsS true []] convexS = parseSubEntries [] convexS ∧
      (rootSkip fooTestTsS = true ∧ subSkip fooTestTsS = true) :=
  ⟨c5_skip_rules.1 (.file testSetupS true emptyS) [] (by decide),
    c5_skip_rules.2.1 (.dir testsS true []) [] convexS (by decide),
    c5_skip_rules.2.2 fooTestTsS (by decide)⟩

/-! ### C9: the tree invariant -/

theorem nodeOk_iff (n p : String) (fs : List FunctionInfo) (cs : List ModuleInfo) :
    nodeOk (ModuleInfo.mk n p fs cs) = true ↔
      (fs ≠ [] ∨ cs ≠ []) ∧
        ∀ c ∈ cs, c.path = p ++ slashS ++ c.name ∧ nodeOk c = true := by
  rw [nodeOk]
  simp only [Bool.and_eq_true, Bool.or_eq_true, Bool.not_eq_true', List.all_eq_true,
    List.mem_attach, true_implies, Subtype.forall, beq_iff_eq]
  constructor
  · rintro ⟨h1, h2⟩
    refine ⟨?_, fun c hc => h2 c hc⟩
    rcases h1 with h1 | h1
    · exact Or.inl (by simpa using h1)
    · exact Or.inr (by simpa using h1)
  · rintro ⟨h1, h2⟩
    refine ⟨?_, fun c hc => h2 c hc⟩
    rcases h1 with h1 | h1
    · exact Or.inl (by simpa using h1)
    · exact Or.inr (by simpa using h1)

/-- The walker's invariant, by induction on the size of the scanned tree:
a subdirectory module keeps the parent path it was given, carries no
functions of its own, and all its retained children extend its path by one
slash-separated component and satisfy the full node invariant. -/
theorem walkInv : ∀ n : Nat,
    (∀ d : FSEntry, sizeOf d ≤ n → ∀ p m, parseSubdirectory d p = .ok m →
      m.path = p ∧ m.name = d.name ∧ m.functions = [] ∧
        ∀ c ∈ m.children, c.path = p ++ slashS ++ c.name ∧ nodeOk c = true) ∧
    (∀ es : List FSEntry, sizeOf es ≤ n → ∀ p ms, parseSubEntries es p = .ok ms →
      ∀ m ∈ ms, m.path = p ++ slashS ++ m.name ∧ nodeOk m = true) := by
  intro n
  induction n with
  | zero =>
    constructor
    · intro d hd
      exfalso
      cases d <;> simp at hd
    · intro es hes
      exfalso
      cases es <;> simp at hes
  | succ n ih =>
    obtain ⟨ihd, ihes⟩ := ih
    constructor
    · rintro (⟨fn, fr, fc⟩ | ⟨dn, dr, des⟩) hd p m hok
      · simp [parseSubdirectory] at hok
      · cases dr with
        | false => simp [parseSubdirectory] at hok
        | true =>
          rcases hse : parseSubEntries des p with err | children
          · simp [parseSubdirectory, hse] at hok
          · simp only [parseSubdirectory, hse, Except.ok.injEq] at hok
            subst hok
            have hsz : sizeOf des ≤ n := by
              simp at hd
              omega
            have hch := ihes des hsz p children hse
            exact ⟨rfl, rfl, rfl, fun c hc => hch c hc⟩
    · rintro (_ | ⟨e, rest⟩) hes p ms hok
      · simp only [parseSubEntries, Except.ok.injEq] at hok
        subst hok
        intro m hm
        simp at hm
      · have hsz1 : sizeOf e ≤ n := by
          simp at hes
          omega
        have hsz2 : sizeOf rest ≤ n := by
          simp at hes
          omega
        by_cases hskip : subSkip e.name = true
        · simp only [parseSubEntries, hskip, if_true] at hok
          exact ihes rest hsz2 p ms hok
        · have hskip' : subSkip e.name = false := by simpa using hskip
          cases e with
          | dir dn dr des =>
            simp only [FSEntry.name] at hskip'
            rcases hsd : parseSubdirectory (.dir dn dr des) (p ++ slashS ++ dn) with err | sub
            · simp [parseSubEntries, FSEntry.name, hskip', hsd] at hok
            · rcases hrest : parseSubEntries rest p with err | ms'
              · simp [parseSubEntries, FSEntry.name, hskip', hsd, hrest] at hok
              · have hok' : (if sub.functions.isEmpty && sub.children.isEmpty then ms'
                    else sub :: ms') = ms := by
                  simpa [parseSubEntries, FSEntry.name, hskip', hsd, hrest] using hok
                obtain ⟨hp, hn, hf, hc⟩ :=
                  ihd (.dir dn dr des) hsz1 _ sub hsd
                intro m hm
                by_cases hemp : (sub.functions.isEmpty && sub.children.isEmpty) = true
                · rw [if_pos hemp] at hok'
                  subst hok'
                  exact ihes rest hsz2 p ms' hrest m hm
                · rw [if_neg hemp] at hok'
                  subst hok'
                  rcases List.mem_cons.mp hm with hm | hm
                  · subst hm
                    have hname : FSEntry.name (FSEntry.dir dn dr des) = dn := rfl
                    refine ⟨by rw [hp, hn, hname], ?_⟩
                    rcases m with ⟨sn, sp, sfs, scs⟩
                    rw [nodeOk_iff]
                    constructor
                    · have := hemp
                      simp only [ModuleInfo.functions, ModuleInfo.children,
                        Bool.and_eq_true, List.isEmpty_eq_true, not_and] at this
                      by_cases hc1 : sfs = []
                      · exact Or.inr (this hc1)
                      · exact Or.inl hc1
                    · intro c hc'
                      have hsp : sp = p ++ slashS ++ dn := by
                        have := hp
                        simpa [ModuleInfo.path] using this
                      have := hc c (by simpa [ModuleInfo.children] using hc')
                      rw [hsp]
                      exact this
                  · exact ihes rest hsz2 p ms' hrest m hm
          | file fn fr fc =>
            simp only [FSEntry.name] at hskip'
            by_cases hts : jsEndsWith fn tsExtS = true
            · rcases hrest : parseSubEntries rest p with err | ms'
              · simp [parseSubEntries, FSEntry.name, hskip', hts, hrest] at hok
              · have hok' : (if (parseFile (.file fn fr fc)
                      (p ++ slashS ++ jsReplaceFirst fn tsExtS emptyS)).isEmpty then ms'
                    else ModuleInfo.mk (jsReplaceFirst fn tsExtS emptyS)
                      (p ++ slashS ++ jsReplaceFirst fn tsExtS emptyS)
                      (parseFile (.file fn fr fc)
                        (p ++ slashS ++ jsReplaceFirst fn tsExtS emptyS)) [] :: ms') = ms := by
                  simpa [parseSubEntries, FSEntry.name, hskip', hts, hrest] using hok
                intro m hm
                by_cases hfe : (parseFile (.file fn fr fc)
                    (p ++ slashS ++ jsReplaceFirst fn tsExtS emptyS)).isEmpty = true
                · rw [if_pos hfe] at hok'
                  subst hok'
                  exact ihes rest hsz2 p ms' hrest m hm
                · rw [if_neg hfe] at hok'
                  subst hok'
                  rcases List.mem_cons.mp hm with hm | hm
                  · subst hm
                    refine ⟨rfl, ?_⟩
                    rw [nodeOk_iff]
                    refine ⟨Or.inl (by simpa using hfe), ?_⟩
                    intro c hc'
                    simp [ModuleInfo.children] at hc'
                  · exact ihes rest hsz2 p ms' hrest m hm
            · have hts' : jsEndsWith fn tsExtS = false := by simpa using hts
              have hok' : parseSubEntries rest p = .ok ms := by
                simpa [parseSubEntries, FSEntry.name, hskip', hts'] using hok
              exact ihes rest hsz2 p ms hok'

/-- The root loop's invariant: a root-level node's path is its bare name, and
every produced node satisfies the full invariant. -/
theorem rootInv : ∀ (es : List FSEntry) (ms : List ModuleInfo),
    parseConvexEntries es = .ok ms → ∀ m ∈ ms, m.path = m.name ∧ nodeOk m = true := by
  intro es
  induction es with
  | nil =>
    intro ms hok
    simp only [parseConvexEntries, Except.ok.injEq] at hok
    subst hok
    intro m hm
    simp at hm
  | cons e rest ih =>
    intro ms hok
    by_cases hskip : rootSkip e.name = true
    · simp only [parseConvexEntries, hskip, if_true] at hok
      exact ih ms hok
    · have hskip' : rootSkip e.name = false := by simpa using hskip
      cases e with
      | dir dn dr des =>
        simp only [FSEntry.name] at hskip'
        rcases hsd : parseSubdirectory (.dir dn dr des) dn with err | sub
        · simp [parseConvexEntries, FSEntry.name, hskip', hsd] at hok
        · rcases hrest : parseConvexEntries rest with err | ms'
          · simp [parseConvexEntries, FSEntry.name, hskip', hsd, hrest] at hok
          · have hok' : (if sub.functions.isEmpty && sub.children.isEmpty then ms'
                else sub :: ms') = ms := by
              simpa [parseConvexEntries, FSEntry.name, hskip', hsd, hrest] using hok
            obtain ⟨hp, hn, hf, hc⟩ :=
              (walkInv (sizeOf (FSEntry.dir dn dr des))).1 _ le_rfl _ sub hsd
            intro m hm
            by_cases hemp : (sub.functions.isEmpty && sub.children.isEmpty) = true
            · rw [if_pos hemp] at hok'
              subst hok'
              exact ih ms' hrest m hm
            · rw [if_neg hemp] at hok'
              subst hok'
              rcases List.mem_cons.mp hm with hm | hm
              · subst hm
                have hname : FSEntry.name (FSEntry.dir dn dr des) = dn := rfl
                refine ⟨by rw [hp, hn, hname], ?_⟩
                rcases m with ⟨sn, sp, sfs, scs⟩
                rw [nodeOk_iff]
                constructor
                · have := hemp
                  simp only [ModuleInfo.functions, ModuleInfo.children,
                    Bool.and_eq_true, List.isEmpty_eq_true, not_and] at this
                  by_cases hc1 : sfs = []
                  · exact Or.inr (this hc1)
                  · exact Or.inl hc1
                · intro c hc'
                  have hsp : sp = dn := by
                    have := hp
                    simpa [ModuleInfo.path] using this
                  have := hc c (by simpa [ModuleInfo.children] using hc')
                  rw [hsp]
                  exact this
              · exact ih ms' hrest m hm
      | file fn fr fc =>
        simp only [FSEntry.name] at hskip'
        by_cases hts : jsEndsWith fn tsExtS = true
        · rcases hrest : parseConvexEntries rest with err | ms'
          · simp [parseConvexEntries, FSEntry.name, hskip', hts, hrest] at hok
          · have hok' : (if (parseFile (.file fn fr fc)
                  (jsReplaceFirst fn tsExtS emptyS)).isEmpty then ms'
                else ModuleInfo.mk (jsReplaceFirst fn tsExtS emptyS)
                  (jsReplaceFirst fn tsExtS emptyS)
                  (parseFile (.file fn fr fc) (jsReplaceFirst fn tsExtS emptyS)) [] :: ms')
                = ms := by
              simpa [parseConvexEntries, FSEntry.name, hskip', hts, hrest] using hok
            intro m hm
            by_cases hfe : (parseFile (.file fn fr fc)
                (jsReplaceFirst fn tsExtS emptyS)).isEmpty = true
            · rw [if_pos hfe] at hok'
              subst hok'
              exact ih ms' hrest m hm
            · rw [if_neg hfe] at hok'
              subst hok'
              rcases List.mem_cons.mp hm with hm | hm
              · subst hm
                refine ⟨rfl, ?_⟩
                rw [nodeOk_iff]
                refine ⟨Or.inl (by simpa using hfe), ?_⟩
                intro c hc'
                simp [ModuleInfo.children] at hc'
              · exact ih ms' hrest m hm
        · have hts' : jsEndsWith fn tsExtS = false := by simpa using hts
          have hok' : parseConvexEntries rest = .ok ms := by
            simpa [parseConvexEntries, FSEntry.name, hskip', hts'] using hok
          exact ih ms hok'

/-- C9: in every tree a successful scan produces, a root-level node's path is
its bare name, and recursively every node is non-empty and every child's path
is its parent's path, a slash, and the child's name. -/
theorem c9_tree_invariant :
    ∀ (root : FSEntry) (mods : List ModuleInfo), parseConvexDirectory root = .ok mods →
      ∀ m ∈ mods, m.path = m.name ∧ nodeOk m = true := by
  intro root mods hok
  cases root with
  | file n r c => simp [parseConvexDirectory] at hok
  | dir n r es =>
    cases r with
    | false => simp [parseConvexDirectory] at hok
    | true => exact rootInv es mods (by simpa [parseConvexDirectory] using hok)

/-- Witness for C9 at a concrete one-file tree. -/
theorem c9_tree_invariant_witness :
    (ModuleInfo.mk fooS fooS [⟨qS, fooS ++ colonS ++ qS, queryS, [], none⟩] []).path =
        (ModuleInfo.mk fooS fooS [⟨qS, fooS ++ colonS ++ qS, queryS, [], none⟩] []).name ∧
      nodeOk (ModuleInfo.mk fooS fooS [⟨qS, fooS ++ colonS ++ qS, queryS, [], none⟩] []) =
        true :=
  c9_tree_invariant c9tree
    [ModuleInfo.mk fooS fooS [⟨qS, fooS ++ colonS ++ qS, queryS, [], none⟩] []]
    (by
      have hx : extractFunctions goodContent fooS =
          [⟨qS, fooS ++ colonS ++ qS, queryS, [], none⟩] := by decide
      have h1 : rootSkip fooTsS = false := by decide
      have h2 : jsEndsWith fooTsS tsExtS = true := by decide
      have h3 : jsReplaceFirst fooTsS tsExtS emptyS = fooS := by decide
      simp [c9tree, parseConvexDirectory, parseConvexEntries, parseFile, FSEntry.name,
        h1, h2, h3, hx])
    (ModuleInfo.mk fooS fooS [⟨qS, fooS ++ colonS ++ qS, queryS, [], none⟩] [])
    (by simp)

/-! ### Evaluation helpers for symbolic inputs -/

theorem takeWhile_all {p : Char → Bool} {xs : List Char} (h : ∀ c ∈ xs, p c = true) :
    List.takeWhile p xs = xs := by
  have := takeWhile_app_all h []
  simpa using this

theorem dropWhile_all {p : Char → Bool} {xs : List Char} (h : ∀ c ∈ xs, p c = true) :
    List.dropWhile p xs = [] := by
  have := dropWhile_app_all h []
  simpa using this

theorem dropWhile_head_false {p : Char → Bool} {l : List Char}
    (h : ∀ x ∈ l.head?, p x = false) : List.dropWhile p l = l := by
  cases l with
  | nil => rfl
  | cons c cs =>
    have hc : p c = false := h c (by simp)
    simp [List.dropWhile_cons, hc]

/-- JS `trim` is the identity when neither end is whitespace. -/
theorem jsTrimL_eq_self {l : List Char} (h1 : ∀ x ∈ l.head?, isWs x = false)
    (h2 : ∀ x ∈ l.getLast?, isWs x = false) : jsTrimL l = l := by
  rw [jsTrimL, dropWhile_head_false h1, dropWhile_head_false, List.reverse_reverse]
  intro x hx
  rw [List.head?_reverse] at hx
  exact h2 x hx

theorem matchQuoteAt_ne {c : Char} (cs : List Char) (h : c ≠ '\'') :
    matchQuoteAt (c :: cs) = none := by
  simp [matchQuoteAt, h]

theorem scanQuotes_cons_ne {c : Char} (cs : List Char) (h : c ≠ '\'') :
    scanSkip matchQuoteAt (c :: cs) 0 = scanSkip matchQuoteAt cs 0 :=
  scanSkip_nomatch (matchQuoteAt_ne cs h)

/-- One full quoted value at the head: `'inner'` with a quote-free nonempty
inner region. -/
theorem matchQuoteAt_app {inner t : List Char} (hne : inner ≠ [])
    (hq : ∀ c ∈ inner, (c != '\'') = true) :
    matchQuoteAt ('\'' :: (inner ++ ('\'' :: t))) = some (inner, t) := by
  have hdrop : List.dropWhile (fun x => x != '\'') (inner ++ ('\'' :: t)) = '\'' :: t := by
    rw [dropWhile_app_all hq]
    simp
  have htake : List.takeWhile (fun x => x != '\'') (inner ++ ('\'' :: t)) = inner := by
    rw [takeWhile_app_all hq]
    simp
  simp [matchQuoteAt, hdrop, htake, hne]

/-! ### C4: enum values mined from `@param` descriptions -/

/-- Evaluation of the `@param` matcher on the C4 family of comment lines. -/
theorem matchParamAt_c4 (a b : String) (ha : ∀ c ∈ a.data, c ≠ '\'' ∧ c ≠ '@')
    (hb : ∀ c ∈ b.data, c ≠ '\'' ∧ c ≠ '@') :
    matchParamAt (paramLineL a b) = some ((['x'], paramDescL a b), []) := by
  have hseg1 : ∀ c ∈ ("one of '").data, (c != '@') = true := by decide
  have hseg2 : ∀ c ∈ ("', '").data, (c != '@') = true := by decide
  have hseg3 : ∀ c ∈ ['\''], (c != '@') = true := by decide
  have hD : ∀ c ∈ paramDescL a b, (c != '@') = true := by
    intro c hc
    simp only [paramDescL, List.append_assoc, List.mem_append] at hc
    rcases hc with hc | hc | hc | hc | hc
    · exact hseg1 c hc
    · simpa using (ha c hc).2
    · exact hseg2 c hc
    · simpa using (hb c hc).2
    · exact hseg3 c hc
  have hsplit : paramLineL a b =
      atParam ++ (' ' :: 'x' :: ' ' :: '-' :: ' ' :: paramDescL a b) := by
    simp [paramLineL, paramDescL, atParam, List.append_assoc]
  rw [matchParamAt, hsplit, stripLit_of_eq, Option.some_bind]
  have hws1 : ws1 (' ' :: 'x' :: ' ' :: '-' :: ' ' :: paramDescL a b) =
      some ('x' :: ' ' :: '-' :: ' ' :: paramDescL a b) := by
    simp +decide [ws1, List.dropWhile_cons]
  rw [hws1, Option.some_bind]
  have hw1 : word1 ('x' :: ' ' :: '-' :: ' ' :: paramDescL a b) =
      some (['x'], ' ' :: '-' :: ' ' :: paramDescL a b) := by
    simp +decide [word1, List.takeWhile_cons, List.dropWhile_cons]
  rw [hw1, Option.map_some']
  have hskips : wsSkip (dashSkip (wsSkip (' ' :: '-' :: ' ' :: paramDescL a b))) =
      paramDescL a b := by
    have h1 : wsSkip (' ' :: '-' :: ' ' :: paramDescL a b) =
        '-' :: ' ' :: paramDescL a b := by
      simp +decide [wsSkip, List.dropWhile_cons]
    rw [h1]
    have h2 : dashSkip ('-' :: ' ' :: paramDescL a b) = ' ' :: paramDescL a b := rfl
    rw [h2]
    have h3 : wsSkip (' ' :: paramDescL a b) = paramDescL a b := by
      rw [wsSkip, List.dropWhile_cons]
      simp only [show isWs ' ' = true from by decide, if_true]
      apply dropWhile_head_false
      intro x hx
      simp only [paramDescL, List.append_assoc] at hx
      simp at hx
      cases hx
      decide
    rw [h3]
  rw [hskips, takeWhile_all hD, dropWhile_all hD]

/-- C4: for the comment line `@param x - one of 'A', 'B'` with arbitrary
quote-free, at-free nonempty values `A`, `B`, the parsed parameter `x`
carries the trimmed description and `enumValues = [A, B]`, in order of first
appearance. -/
theorem c4_enum_values :
    ∀ a b : String, a.data ≠ [] → b.data ≠ [] →
      (∀ c ∈ a.data, c ≠ '\'' ∧ c ≠ '@') → (∀ c ∈ b.data, c ≠ '\'' ∧ c ≠ '@') →
      getParam (parseJSDocParams (paramLineL a b)) xS =
        some ⟨String.mk (paramDescL a b), some [a, b]⟩ := by
  intro a b hna hnb ha hb
  have haQ : ∀ c ∈ a.data, (c != '\'') = true := fun c hc => by simpa using (ha c hc).1
  have hbQ : ∀ c ∈ b.data, (c != '\'') = true := fun c hc => by simpa using (hb c hc).1
  have hm := matchParamAt_c4 a b ha hb
  have hlen : ([] : List Char).length < (paramLineL a b).length := by
    simp [paramLineL]
  have hscan : scanParams (paramLineL a b) = [(['x'], paramDescL a b)] := by
    rw [scanParams, scanSkip_match hm List.nil_suffix hlen]
    simp [scanSkip]
  have hfold : parseJSDocParams (paramLineL a b) =
      [(String.mk ['x'], mkParamInfo (paramDescL a b))] := by
    rw [parseJSDocParams, hscan]
    simp [setParam]
  have hDnorm : paramDescL a b =
      'o' :: 'n' :: 'e' :: ' ' :: 'o' :: 'f' :: ' ' :: '\'' ::
        (a.data ++ ('\'' :: ',' :: ' ' :: '\'' :: (b.data ++ ['\'']))) := by
    simp [paramDescL, List.append_assoc]
  have htrim : jsTrimL (paramDescL a b) = paramDescL a b := by
    apply jsTrimL_eq_self
    · intro x hx
      rw [hDnorm] at hx
      simp at hx
      cases hx
      decide
    · intro x hx
      rw [paramDescL, List.getLast?_concat] at hx
      simp at hx
      cases hx
      decide
  have hquo : scanQuotes (paramDescL a b) = [a.data, b.data] := by
    rw [scanQuotes, hDnorm]
    rw [scanQuotes_cons_ne _ (by decide), scanQuotes_cons_ne _ (by decide),
      scanQuotes_cons_ne _ (by decide), scanQuotes_cons_ne _ (by decide),
      scanQuotes_cons_ne _ (by decide), scanQuotes_cons_ne _ (by decide),
      scanQuotes_cons_ne _ (by decide)]
    have hq1 := matchQuoteAt_app (t := ',' :: ' ' :: '\'' :: (b.data ++ ['\''])) hna haQ
    obtain ⟨hs1, hl1⟩ := matchQuoteAt_spec hq1
    rw [scanSkip_match hq1 hs1 hl1]
    rw [scanQuotes_cons_ne _ (by decide), scanQuotes_cons_ne _ (by decide)]
    have hbsplit : b.data ++ ['\''] = b.data ++ ('\'' :: []) := by simp
    have hq2 : matchQuoteAt ('\'' :: (b.data ++ ['\''])) = some (b.data, []) := by
      rw [hbsplit]
      exact matchQuoteAt_app hnb hbQ
    obtain ⟨hs2, hl2⟩ := matchQuoteAt_spec hq2
    rw [scanSkip_match hq2 hs2 hl2]
    simp [scanSkip]
  have hinfo : mkParamInfo (paramDescL a b) =
      ⟨String.mk (paramDescL a b), some [a, b]⟩ := by
    rw [mkParamInfo]
    simp only [htrim, hquo]
    simp
  rw [hfold, hinfo]
  have hxs : String.mk ['x'] = xS := rfl
  rw [hxs]
  simp [getParam]

/-- Witness for C4 at the concrete values `aa`, `bb`. -/
theorem c4_enum_values_witness :
    (("aa" : String).data ≠ [] ∧ ("bb" : String).data ≠ []) ∧
      getParam (parseJSDocParams (paramLineL "aa" "bb")) xS =
        some ⟨String.mk (paramDescL "aa" "bb"), some ["aa", "bb"]⟩ :=
  ⟨⟨by decide, by decide⟩,
    c4_enum_values "aa" "bb" (by decide) (by decide) (by decide) (by decide)⟩

/-! ### C1: evaluation of the extractor on well-formed declarations -/

theorem data_append (s t : String) : (s ++ t).data = s.data ++ t.data := rfl

theorem matchArgsBlockAt_isPrefix {l : List Char} {x : List Char}
    (h : matchArgsBlockAt l = some x) : argsKey <+: l := by
  rw [matchArgsBlockAt, Option.bind_eq_some] at h
  obtain ⟨r1, h1, -⟩ := h
  exact ⟨r1, (stripLit_eq h1).symm⟩

/-- `args:` cannot start inside a run of word characters followed by a
space: the fifth pattern character is `:`. -/
theorem argsKey_not_prefix_word : ∀ (w : List Char), (∀ c ∈ w, isWordChar c = true) →
    ∀ u, ¬ (argsKey <+: (w ++ (' ' :: u))) := by
  intro w hw u hpre
  obtain ⟨rest, heq⟩ := hpre
  rcases w with _ | ⟨c1, _ | ⟨c2, _ | ⟨c3, _ | ⟨c4, _ | ⟨c5, w5⟩⟩⟩⟩⟩
  · simp +decide [argsKey] at heq
  · simp +decide [argsKey] at heq
  · simp +decide [argsKey] at heq
  · simp +decide [argsKey] at heq
  · simp +decide [argsKey] at heq
  · simp [argsKey] at heq
    obtain ⟨-, -, -, -, h5, -⟩ := heq
    have hc5 := hw c5 (by simp)
    rw [← h5] at hc5
    exact absurd hc5 (by decide)

theorem findArgsBlock_cons_none {c : Char} {cs : List Char}
    (h : matchArgsBlockAt (c :: cs) = none) :
    findArgsBlock (c :: cs) = findArgsBlock cs := by
  simp [findArgsBlock, h]

theorem matchArgsBlockAt_ne {c : Char} (cs : List Char) (h : c ≠ 'a') :
    matchArgsBlockAt (c :: cs) = none := by
  have hk : argsKey = 'a' :: 'r' :: 'g' :: 's' :: ':' :: [] := rfl
  rw [matchArgsBlockAt, hk]
  simp [stripLit, h]

theorem findArgsBlock_step {c : Char} (cs : List Char) (h : c ≠ 'a') :
    findArgsBlock (c :: cs) = findArgsBlock cs :=
  findArgsBlock_cons_none (matchArgsBlockAt_ne cs h)

/-- Scanning for the args block walks over a word-character region whose
following character is a space. -/
theorem findArgsBlock_skip_word : ∀ (w : List Char), (∀ c ∈ w, isWordChar c = true) →
    ∀ u, findArgsBlock (w ++ (' ' :: u)) = findArgsBlock (' ' :: u) := by
  intro w
  induction w with
  | nil =>
    intro _ u
    simp
  | cons c w' ih =>
    intro hw u
    have hnone : matchArgsBlockAt (c :: (w' ++ (' ' :: u))) = none := by
      rcases hm : matchArgsBlockAt (c :: (w' ++ (' ' :: u))) with _ | x
      · rfl
      · exfalso
        exact argsKey_not_prefix_word (c :: w') hw u
          (by
            have := matchArgsBlockAt_isPrefix hm
            simpa using this)
    rw [List.cons_append, findArgsBlock_cons_none hnone]
    exact ih (fun d hd => hw d (by simp [hd])) u

theorem matchArgAt_notword {c : Char} (cs : List Char) (h : isWordChar c = false) :
    matchArgAt (c :: cs) = none := by
  simp [matchArgAt, word1, h]

/-- One attempted export match at the head of a well-formed declaration. -/
theorem matchExportAt_decl (w : List Char) (hne : w ≠ [])
    (hw : ∀ c ∈ w, isWordChar c = true) (rest : List Char) :
    matchExportAt (("export const ").data ++
        (w ++ (' ' :: '=' :: ' ' :: 'q' :: 'u' :: 'e' :: 'r' :: 'y' :: '(' :: '\x7b' :: rest)))
      = some (w, kwQuery, rest) := by
  have hhead : ∀ x ∈ (w ++ (' ' :: '=' :: ' ' :: 'q' :: 'u' :: 'e' :: 'r' :: 'y' :: '(' ::
      '\x7b' :: rest)).head?, isWs x = false := by
    cases w with
    | nil => exact absurd rfl hne
    | cons c0 w' =>
      intro x hx
      simp at hx
      rw [← hx]
      exact not_ws_of_wordChar (hw c0 (by simp))
  have hsplit : ("export const ").data ++
      (w ++ (' ' :: '=' :: ' ' :: 'q' :: 'u' :: 'e' :: 'r' :: 'y' :: '(' :: '\x7b' :: rest)) =
      kwExport ++ (' ' :: 'c' :: 'o' :: 'n' :: 's' :: 't' :: ' ' ::
        (w ++ (' ' :: '=' :: ' ' :: 'q' :: 'u' :: 'e' :: 'r' :: 'y' :: '(' :: '\x7b' :: rest))) := by
    simp [kwExport]
  rw [matchExportAt, hsplit, stripLit_of_eq, Option.some_bind]
  have hws1 : ws1 (' ' :: 'c' :: 'o' :: 'n' :: 's' :: 't' :: ' ' ::
      (w ++ (' ' :: '=' :: ' ' :: 'q' :: 'u' :: 'e' :: 'r' :: 'y' :: '(' :: '\x7b' :: rest))) =
      some ('c' :: 'o' :: 'n' :: 's' :: 't' :: ' ' ::
        (w ++ (' ' :: '=' :: ' ' :: 'q' :: 'u' :: 'e' :: 'r' :: 'y' :: '(' :: '\x7b' :: rest))) := by
    simp +decide [ws1, List.dropWhile_cons]
  rw [hws1, Option.some_bind]
  have hsplit2 : ('c' :: 'o' :: 'n' :: 's' :: 't' :: ' ' ::
      (w ++ (' ' :: '=' :: ' ' :: 'q' :: 'u' :: 'e' :: 'r' :: 'y' :: '(' :: '\x7b' :: rest))) =
      kwConst ++ (' ' ::
        (w ++ (' ' :: '=' :: ' ' :: 'q' :: 'u' :: 'e' :: 'r' :: 'y' :: '(' :: '\x7b' :: rest))) := rfl
  rw [hsplit2, stripLit_of_eq, Option.some_bind]
  have hws2 : ws1 (' ' ::
      (w ++ (' ' :: '=' :: ' ' :: 'q' :: 'u' :: 'e' :: 'r' :: 'y' :: '(' :: '\x7b' :: rest))) =
      some (w ++ (' ' :: '=' :: ' ' :: 'q' :: 'u' :: 'e' :: 'r' :: 'y' :: '(' :: '\x7b' :: rest)) := by
    rw [ws1]
    simp only [show isWs ' ' = true from by decide, if_true, Option.some.injEq]
    exact dropWhile_head_false hhead
  rw [hws2, Option.some_bind]
  have hw1 : word1 (w ++ (' ' :: '=' :: ' ' :: 'q' :: 'u' :: 'e' :: 'r' :: 'y' :: '(' ::
      '\x7b' :: rest)) = some (w, ' ' :: '=' :: ' ' :: 'q' :: 'u' :: 'e' :: 'r' :: 'y' :: '(' ::
      '\x7b' :: rest) :=
    word1_of_app hne hw (by intro x hx; simp at hx; rw [← hx]; decide)
  rw [hw1, Option.some_bind]
  have hws3 : wsSkip (' ' :: '=' :: ' ' :: 'q' :: 'u' :: 'e' :: 'r' :: 'y' :: '(' ::
      '\x7b' :: rest) = '=' :: ' ' :: 'q' :: 'u' :: 'e' :: 'r' :: 'y' :: '(' :: '\x7b' :: rest := by
    simp +decide [wsSkip, List.dropWhile_cons]
  rw [hws3]
  have hexp : expectChar '=' ('=' :: ' ' :: 'q' :: 'u' :: 'e' :: 'r' :: 'y' :: '(' ::
      '\x7b' :: rest) = some (' ' :: 'q' :: 'u' :: 'e' :: 'r' :: 'y' :: '(' :: '\x7b' :: rest) := by
    simp [expectChar]
  rw [hexp, Option.some_bind]
  have hws4 : wsSkip (' ' :: 'q' :: 'u' :: 'e' :: 'r' :: 'y' :: '(' :: '\x7b' :: rest) =
      'q' :: 'u' :: 'e' :: 'r' :: 'y' :: '(' :: '\x7b' :: rest := by
    simp +decide [wsSkip, List.dropWhile_cons]
  rw [hws4]
  have hkt : kindTail kwQuery ('q' :: 'u' :: 'e' :: 'r' :: 'y' :: '(' :: '\x7b' :: rest) =
      some rest := by
    have hqsplit : ('q' :: 'u' :: 'e' :: 'r' :: 'y' :: '(' :: '\x7b' :: rest) =
        kwQuery ++ ('(' :: '\x7b' :: rest) := rfl
    rw [kindTail, hqsplit, stripLit_of_eq, Option.some_bind]
    have h1 : wsSkip ('(' :: '\x7b' :: rest) = '(' :: '\x7b' :: rest := by
      simp +decide [wsSkip, List.dropWhile_cons]
    rw [h1]
    have h2 : expectChar '(' ('(' :: '\x7b' :: rest) = some ('\x7b' :: rest) := by
      simp [expectChar]
    rw [h2, Option.some_bind]
    have h3 : wsSkip ('\x7b' :: rest) = '\x7b' :: rest := by
      simp +decide [wsSkip, List.dropWhile_cons]
    rw [h3]
    simp [expectChar]
  have hkinds : kindsL = kwQuery ::
      [kwMutation, kwAction, kwInternalQuery, kwInternalMutation, kwInternalAction] := rfl
  rw [hkinds, tryKinds, hkt, Option.map_some']

/-- The args-block search skips any run of characters other than `a`. -/
theorem findArgsBlock_consts : ∀ (pre : List Char), (∀ c ∈ pre, c ≠ 'a') →
    ∀ t, findArgsBlock (pre ++ t) = findArgsBlock t := by
  intro pre
  induction pre with
  | nil =>
    intro _ t
    simp
  | cons c cs ih =>
    intro h t
    rw [List.cons_append, findArgsBlock_step _ (h c (by simp))]
    exact ih (fun d hd => h d (by simp [hd])) t

/-- The args-block match at the `args:` position of a well-formed
declaration, for any argument name and any brace-free value text. -/
theorem matchArgsBlockAt_decl (ad mid u : List Char) (hwa : ∀ c ∈ ad, isWordChar c = true)
    (hmid : ∀ c ∈ mid, (c != '\x7d') = true) :
    matchArgsBlockAt ('a' :: 'r' :: 'g' :: 's' :: ':' :: ' ' :: '\x7b' :: ' ' ::
        (ad ++ (mid ++ ('\x7d' :: u))))
      = some (' ' :: (ad ++ mid)) := by
  have hA : ∀ c ∈ ad, ((c != '\x7d') = true) := fun c hc => by
    simpa using ne_of_wordChar (hwa c hc) (by decide)
  have hsplit : ('a' :: 'r' :: 'g' :: 's' :: ':' :: ' ' :: '\x7b' :: ' ' ::
      (ad ++ (mid ++ ('\x7d' :: u)))) =
      argsKey ++ (' ' :: '\x7b' :: ' ' :: (ad ++ (mid ++ ('\x7d' :: u)))) := rfl
  rw [matchArgsBlockAt, hsplit, stripLit_of_eq, Option.some_bind]
  have h1 : wsSkip (' ' :: '\x7b' :: ' ' :: (ad ++ (mid ++ ('\x7d' :: u)))) =
      '\x7b' :: ' ' :: (ad ++ (mid ++ ('\x7d' :: u))) := by
    simp +decide [wsSkip, List.dropWhile_cons]
  rw [h1]
  have h2 : expectChar '\x7b' ('\x7b' :: ' ' :: (ad ++ (mid ++ ('\x7d' :: u)))) =
      some (' ' :: (ad ++ (mid ++ ('\x7d' :: u)))) := by
    simp [expectChar]
  rw [h2, Option.some_bind]
  have e0 : (' ' :: (ad ++ (mid ++ ('\x7d' :: u)))) =
      [' '] ++ (ad ++ (mid ++ ('\x7d' :: u))) := rfl
  have hdrop : List.dropWhile (fun x => x != '\x7d')
      (' ' :: (ad ++ (mid ++ ('\x7d' :: u)))) = '\x7d' :: u := by
    rw [e0, dropWhile_app_all (by decide), dropWhile_app_all hA, dropWhile_app_all hmid]
    simp +decide [List.dropWhile_cons]
  have htake : List.takeWhile (fun x => x != '\x7d')
      (' ' :: (ad ++ (mid ++ ('\x7d' :: u)))) = ' ' :: (ad ++ mid) := by
    rw [e0, takeWhile_app_all (by decide), takeWhile_app_all hA, takeWhile_app_all hmid]
    simp +decide [List.takeWhile_cons]
  rw [hdrop, htake]

/-- Scanning a whole well-formed declaration finds the args block right where
the declaration declares it. -/
theorem findArgsBlock_decl (w : List Char) (hw : ∀ c ∈ w, isWordChar c = true)
    (u : List Char) :
    findArgsBlock (("export const ").data ++
        (w ++ (' ' :: '=' :: ' ' :: 'q' :: 'u' :: 'e' :: 'r' :: 'y' :: '(' :: '\x7b' :: ' ' :: u)))
      = findArgsBlock u := by
  rw [findArgsBlock_consts (("export const ").data) (by decide),
    findArgsBlock_skip_word w hw]
  have hsplit : (' ' :: '=' :: ' ' :: 'q' :: 'u' :: 'e' :: 'r' :: 'y' :: '(' :: '\x7b' ::
      ' ' :: u) = ([' ', '=', ' ', 'q', 'u', 'e', 'r', 'y', '(', '\x7b', ' '] ++ u) := rfl
  rw [hsplit, findArgsBlock_consts _ (by decide)]

/-- The argument matcher on `a: v.string() `: no optional wrapper. -/
theorem matchArgAt_req (ad : List Char) (hne : ad ≠ [])
    (hwa : ∀ c ∈ ad, isWordChar c = true) :
    matchArgAt (ad ++ (": v.string() ").data) =
      some ((ad, false, ("string").data), ("() ").data) := by
  have hmidsplit : (": v.string() ").data = ':' ::
      (' ' :: 'v' :: '.' :: 's' :: 't' :: 'r' :: 'i' :: 'n' :: 'g' :: '(' :: ')' :: ' ' :: []) := rfl
  rw [matchArgAt, hmidsplit]
  have hw1 := word1_of_app hne hwa
    (t := ':' :: (' ' :: 'v' :: '.' :: 's' :: 't' :: 'r' :: 'i' :: 'n' :: 'g' :: '(' :: ')' ::
      ' ' :: []))
    (by intro x hx; simp at hx; rw [← hx]; decide)
  rw [hw1, Option.some_bind]
  have hexp : expectChar ':' (':' :: (' ' :: 'v' :: '.' :: 's' :: 't' :: 'r' :: 'i' :: 'n' ::
      'g' :: '(' :: ')' :: ' ' :: [])) = some (' ' :: 'v' :: '.' :: 's' :: 't' :: 'r' :: 'i' ::
      'n' :: 'g' :: '(' :: ')' :: ' ' :: []) := by
    simp [expectChar]
  rw [hexp, Option.some_bind]
  have hws : wsSkip (' ' :: 'v' :: '.' :: 's' :: 't' :: 'r' :: 'i' :: 'n' :: 'g' :: '(' ::
      ')' :: ' ' :: []) = 'v' :: '.' :: 's' :: 't' :: 'r' :: 'i' :: 'n' :: 'g' :: '(' :: ')' ::
      ' ' :: [] := by
    simp +decide [wsSkip, List.dropWhile_cons]
  rw [hws]
  have hopt : (stripLit optWrap ('v' :: '.' :: 's' :: 't' :: 'r' :: 'i' :: 'n' :: 'g' :: '(' ::
      ')' :: ' ' :: [])).bind (fun r4 => (stripLit vdot r4).bind word1) = none := by decide
  rw [hopt]
  show matchArgNoOpt ad ('v' :: '.' :: 's' :: 't' :: 'r' :: 'i' :: 'n' :: 'g' :: '(' :: ')' ::
    ' ' :: []) = _
  rw [matchArgNoOpt]
  have hv : stripLit vdot ('v' :: '.' :: 's' :: 't' :: 'r' :: 'i' :: 'n' :: 'g' :: '(' :: ')' ::
      ' ' :: []) = some ('s' :: 't' :: 'r' :: 'i' :: 'n' :: 'g' :: '(' :: ')' :: ' ' :: []) := rfl
  rw [hv, Option.some_bind]
  have hw2 : word1 ('s' :: 't' :: 'r' :: 'i' :: 'n' :: 'g' :: '(' :: ')' :: ' ' :: []) =
      some (("string").data, ("() ").data) := by decide
  rw [hw2, Option.map_some']

/-- The argument matcher on `a: v.optional(v.string()) `: wrapper taken. -/
theorem matchArgAt_opt (ad : List Char) (hne : ad ≠ [])
    (hwa : ∀ c ∈ ad, isWordChar c = true) :
    matchArgAt (ad ++ (": v.optional(v.string()) ").data) =
      some ((ad, true, ("string").data), ("()) ").data) := by
  have hmidsplit : (": v.optional(v.string()) ").data = ':' ::
      (' ' :: ("v.optional(v.string()) ").data) := rfl
  rw [matchArgAt, hmidsplit]
  have hw1 := word1_of_app hne hwa
    (t := ':' :: (' ' :: ("v.optional(v.string()) ").data))
    (by intro x hx; simp at hx; rw [← hx]; decide)
  rw [hw1, Option.some_bind]
  have hexp : expectChar ':' (':' :: (' ' :: ("v.optional(v.string()) ").data)) =
      some (' ' :: ("v.optional(v.string()) ").data) := by
    simp [expectChar]
  rw [hexp, Option.some_bind]
  have hws : wsSkip (' ' :: ("v.optional(v.string()) ").data) =
      ("v.optional(v.string()) ").data := by
    simp +decide [wsSkip, List.dropWhile_cons]
  rw [hws]
  have hopt : (stripLit optWrap (("v.optional(v.string()) ").data)).bind
      (fun r4 => (stripLit vdot r4).bind word1) =
      some (("string").data, ("()) ").data) := by decide
  rw [hopt]

theorem declReq_data (f a post : String) :
    (declReq f a ++ post).data = declCanon f.data a.data ((": v.string() ").data) post.data := by
  have e1 : (" = query(\x7b").data =
      ' ' :: '=' :: ' ' :: 'q' :: 'u' :: 'e' :: 'r' :: 'y' :: '(' :: '\x7b' :: [] := rfl
  have e2 : (" args: \x7b ").data =
      ' ' :: 'a' :: 'r' :: 'g' :: 's' :: ':' :: ' ' :: '\x7b' :: ' ' :: [] := rfl
  have e3 : (": v.string() \x7d \x7d)").data =
      (": v.string() ").data ++ ('\x7d' :: ' ' :: '\x7d' :: ')' :: []) := rfl
  simp [declReq, declCore, declCanon, data_append, e1, e2, e3, List.append_assoc]

theorem declOpt_data (f a post : String) :
    (declOpt f a ++ post).data =
      declCanon f.data a.data ((": v.optional(v.string()) ").data) post.data := by
  have e1 : (" = query(\x7b").data =
      ' ' :: '=' :: ' ' :: 'q' :: 'u' :: 'e' :: 'r' :: 'y' :: '(' :: '\x7b' :: [] := rfl
  have e2 : (" args: \x7b ").data =
      ' ' :: 'a' :: 'r' :: 'g' :: 's' :: ':' :: ' ' :: '\x7b' :: ' ' :: [] := rfl
  have e3 : (": v.optional(v.string()) \x7d \x7d)").data =
      (": v.optional(v.string()) ").data ++ ('\x7d' :: ' ' :: '\x7d' :: ')' :: []) := rfl
  simp [declOpt, declCore, declCanon, data_append, e1, e2, e3, List.append_assoc]

/-- `declCanon` unfolded, in the exact shape the evaluation lemmas use. -/
theorem declCanon_eq (fd ad mid postd : List Char) :
    declCanon fd ad mid postd = ("export const ").data ++
      (fd ++ (' ' :: '=' :: ' ' :: 'q' :: 'u' :: 'e' :: 'r' :: 'y' :: '(' :: '\x7b' :: ' ' ::
        ('a' :: 'r' :: 'g' :: 's' :: ':' :: ' ' :: '\x7b' :: ' ' ::
          (ad ++ (mid ++ ('\x7d' :: ' ' :: '\x7d' :: ')' :: postd)))))) := rfl

/-- Shared assembly for the two C1 conjuncts: the extractor's first result on
a well-formed one-argument declaration. -/
theorem extract_decl_core (f a mp content : String) (mid rest2 : List Char) (argOpt : Bool)
    (hf1 : f.data ≠ []) (hf2 : ∀ c ∈ f.data, isWordChar c = true)
    (_ha1 : a.data ≠ []) (ha2 : ∀ c ∈ a.data, isWordChar c = true)
    (postd : List Char)
    (hdata : content.data = declCanon f.data a.data mid postd)
    (hpag : hasSub content.data pagMarker = false)
    (hmid : ∀ c ∈ mid, (c != '\x7d') = true)
    (hmatch : matchArgAt (a.data ++ mid) = some ((a.data, argOpt, ("string").data), rest2))
    (hrest : scanSkip matchArgAt rest2 0 = []) :
    (extractFunctions content mp).head? =
      some ⟨f, mp ++ colonS ++ f, queryS, [⟨a, stringS, argOpt, none, none⟩], none⟩ := by
  rw [hdata, declCanon_eq] at hpag
  rw [extractFunctions, hdata, scanExports, declCanon_eq]
  have hexp := matchExportAt_decl f.data hf1 hf2
    (' ' :: ('a' :: 'r' :: 'g' :: 's' :: ':' :: ' ' :: '\x7b' :: ' ' ::
      (a.data ++ (mid ++ ('\x7d' :: ' ' :: '\x7d' :: ')' :: postd)))))
  rw [scanExportsAux_match [] hexp, List.map_cons, List.head?_cons]
  have hps : parseJSDocParams ([] : List Char) = [] := rfl
  have hjs : extractJSDocAbove ([] : List Char) = [] := rfl
  have hfb : findArgsBlock (("export const ").data ++
      (f.data ++ (' ' :: '=' :: ' ' :: 'q' :: 'u' :: 'e' :: 'r' :: 'y' :: '(' :: '\x7b' :: ' ' ::
        ('a' :: 'r' :: 'g' :: 's' :: ':' :: ' ' :: '\x7b' :: ' ' ::
          (a.data ++ (mid ++ ('\x7d' :: ' ' :: '\x7d' :: ')' :: postd))))))) =
      some (' ' :: (a.data ++ mid)) := by
    rw [findArgsBlock_decl f.data hf2]
    have hb := matchArgsBlockAt_decl a.data mid (' ' :: '\x7d' :: ')' :: postd) ha2 hmid
    simp [findArgsBlock, hb]
  have hsc : scanArgs (' ' :: (a.data ++ mid)) = [(a.data, argOpt, ("string").data)] := by
    rw [scanArgs, scanSkip_nomatch (matchArgAt_notword _ (by decide))]
    obtain ⟨hs, hl⟩ := matchArgAt_spec hmatch
    rw [scanSkip_match hmatch hs hl, hrest]
  have hargs : extractArgsFromPosition (("export const ").data ++
      (f.data ++ (' ' :: '=' :: ' ' :: 'q' :: 'u' :: 'e' :: 'r' :: 'y' :: '(' :: '\x7b' :: ' ' ::
        ('a' :: 'r' :: 'g' :: 's' :: ':' :: ' ' :: '\x7b' :: ' ' ::
          (a.data ++ (mid ++ ('\x7d' :: ' ' :: '\x7d' :: ')' :: postd)))))))
      (extractJSDocAbove []) = [⟨a, stringS, argOpt, none, none⟩] := by
    rw [hjs, extractArgsFromPosition]
    simp only [hpag, Bool.false_eq_true, if_false]
    rw [explicitArgs]
    simp only [hps, hfb, hsc, List.map_cons, List.map_nil, getParam]
    have ha' : String.mk a.data = a := rfl
    have hstr : String.mk (("string").data) = stringS := rfl
    simp [ha', hstr]
  have hname : String.mk f.data = f := rfl
  have htyp : normalizeType (String.mk kwQuery) = queryS := by decide
  simp only [Option.some.injEq]
  refine FunctionInfo.mk.injEq .. ▸ ?_
  simp [hname, htyp, colonS]
  exact hargs

/-- C1: for every well-formed declaration
`export const f = query({ args: { a: v.string() } })` (arbitrary
word-character names `f` and `a`, arbitrary module path, arbitrary following
text free of the pagination marker), the extractor's descriptor for `f` has
exactly one argument named `a` of coarse type `string` with
`optional = false`; and with the value written `v.optional(v.string())`, the
same holds with `optional = true`. -/
theorem c1_declaration_args :
    (∀ f a mp post : String, f.data ≠ [] → (∀ c ∈ f.data, isWordChar c = true) →
      a.data ≠ [] → (∀ c ∈ a.data, isWordChar c = true) →
      hasSub (declReq f a ++ post).data pagMarker = false →
      (extractFunctions (declReq f a ++ post) mp).head? =
        some ⟨f, mp ++ colonS ++ f, queryS, [⟨a, stringS, false, none, none⟩], none⟩) ∧
    (∀ f a mp post : String, f.data ≠ [] → (∀ c ∈ f.data, isWordChar c = true) →
      a.data ≠ [] → (∀ c ∈ a.data, isWordChar c = true) →
      hasSub (declOpt f a ++ post).data pagMarker = false →
      (extractFunctions (declOpt f a ++ post) mp).head? =
        some ⟨f, mp ++ colonS ++ f, queryS, [⟨a, stringS, true, none, none⟩], none⟩) := by
  constructor
  · intro f a mp post hf1 hf2 ha1 ha2 hpag
    exact extract_decl_core f a mp (declReq f a ++ post) ((": v.string() ").data)
      (("() ").data) false hf1 hf2 ha1 ha2 post.data (declReq_data f a post) hpag
      (by decide) (matchArgAt_req a.data ha1 ha2) (by decide)
  · intro f a mp post hf1 hf2 ha1 ha2 hpag
    exact extract_decl_core f a mp (declOpt f a ++ post) ((": v.optional(v.string()) ").data)
      (("()) ").data) true hf1 hf2 ha1 ha2 post.data (declOpt_data f a post) hpag
      (by decide) (matchArgAt_opt a.data ha1 ha2) (by decide)

/-- Witness for C1 at concrete names and empty following text. -/
theorem c1_declaration_args_witness :
    hasSub (declReq qS xS ++ emptyS).data pagMarker = false ∧
      (extractFunctions (declReq qS xS ++ emptyS) convexS).head? =
        some ⟨qS, convexS ++ colonS ++ qS, queryS, [⟨xS, stringS, false, none, none⟩], none⟩ ∧
      (extractFunctions (declOpt qS xS ++ emptyS) convexS).head? =
        some ⟨qS, convexS ++ colonS ++ qS, queryS, [⟨xS, stringS, true, none, none⟩], none⟩ :=
  ⟨by decide,
    c1_declaration_args.1 qS xS convexS emptyS (by decide) (by decide) (by decide) (by decide)
      (by decide),
    c1_declaration_args.2 qS xS convexS emptyS (by decide) (by decide) (by decide) (by decide)
      (by decide)⟩

/-- A kind keyword followed directly by `(\x7b` completes its own
alternative's continuation. -/
theorem kindTail_self (k rest : List Char) :
    kindTail k (k ++ ('(' :: '\x7b' :: rest)) = some rest := by
  rw [kindTail, stripLit_of_eq, Option.some_bind]
  have h1 : wsSkip ('(' :: '\x7b' :: rest) = '(' :: '\x7b' :: rest := by
    simp +decide [wsSkip, List.dropWhile_cons]
  rw [h1]
  have h2 : expectChar '(' ('(' :: '\x7b' :: rest) = some ('\x7b' :: rest) := by
    simp [expectChar]
  rw [h2, Option.some_bind]
  have h3 : wsSkip ('\x7b' :: rest) = '\x7b' :: rest := by
    simp +decide [wsSkip, List.dropWhile_cons]
  rw [h3]
  simp [expectChar]

/-- The kind alternation on `internalQuery(\x7b...`: the three base-kind
alternatives fail and `internalQuery` is captured. -/
theorem tryKinds_iq (rest : List Char) :
    tryKinds kindsL (kwInternalQuery ++ ('(' :: '\x7b' :: rest)) =
      some (kwInternalQuery, rest) := by
  have hq : kindTail kwQuery (kwInternalQuery ++ ('(' :: '\x7b' :: rest)) = none := by
    simp +decide [kindTail, kwQuery, kwInternalQuery, stripLit]
  have hm : kindTail kwMutation (kwInternalQuery ++ ('(' :: '\x7b' :: rest)) = none := by
    simp +decide [kindTail, kwMutation, kwInternalQuery, stripLit]
  have ha : kindTail kwAction (kwInternalQuery ++ ('(' :: '\x7b' :: rest)) = none := by
    simp +decide [kindTail, kwAction, kwInternalQuery, stripLit]
  have hkinds : kindsL = kwQuery :: kwMutation :: kwAction :: kwInternalQuery ::
      kwInternalMutation :: kwInternalAction :: [] := rfl
  simp only [hkinds, tryKinds, hq, hm, ha, kindTail_self]

/-- The kind alternation on `internalMutation(\x7b...`: the base kinds and
`internalQuery` fail and `internalMutation` is captured. -/
theorem tryKinds_im (rest : List Char) :
    tryKinds kindsL (kwInternalMutation ++ ('(' :: '\x7b' :: rest)) =
      some (kwInternalMutation, rest) := by
  have hq : kindTail kwQuery (kwInternalMutation ++ ('(' :: '\x7b' :: rest)) = none := by
    simp +decide [kindTail, kwQuery, kwInternalMutation, stripLit]
  have hm : kindTail kwMutation (kwInternalMutation ++ ('(' :: '\x7b' :: rest)) = none := by
    simp +decide [kindTail, kwMutation, kwInternalMutation, stripLit]
  have ha : kindTail kwAction (kwInternalMutation ++ ('(' :: '\x7b' :: rest)) = none := by
    simp +decide [kindTail, kwAction, kwInternalMutation, stripLit]
  have hiq : kindTail kwInternalQuery (kwInternalMutation ++ ('(' :: '\x7b' :: rest)) =
      none := by
    simp +decide [kindTail, kwInternalQuery, kwInternalMutation, stripLit]
  have hkinds : kindsL = kwQuery :: kwMutation :: kwAction :: kwInternalQuery ::
      kwInternalMutation :: kwInternalAction :: [] := rfl
  simp only [hkinds, tryKinds, hq, hm, ha, hiq, kindTail_self]

/-- The kind alternation on `internalAction(\x7b...`: every earlier
alternative fails and `internalAction` is captured. -/
theorem tryKinds_ia (rest : List Char) :
    tryKinds kindsL (kwInternalAction ++ ('(' :: '\x7b' :: rest)) =
      some (kwInternalAction, rest) := by
  have hq : kindTail kwQuery (kwInternalAction ++ ('(' :: '\x7b' :: rest)) = none := by
    simp +decide [kindTail, kwQuery, kwInternalAction, stripLit]
  have hm : kindTail kwMutation (kwInternalAction ++ ('(' :: '\x7b' :: rest)) = none := by
    simp +decide [kindTail, kwMutation, kwInternalAction, stripLit]
  have ha : kindTail kwAction (kwInternalAction ++ ('(' :: '\x7b' :: rest)) = none := by
    simp +decide [kindTail, kwAction, kwInternalAction, stripLit]
  have hiq : kindTail kwInternalQuery (kwInternalAction ++ ('(' :: '\x7b' :: rest)) =
      none := by
    simp +decide [kindTail, kwInternalQuery, kwInternalAction, stripLit]
  have him : kindTail kwInternalMutation (kwInternalAction ++ ('(' :: '\x7b' :: rest)) =
      none := by
    simp +decide [kindTail, kwInternalMutation, kwInternalAction, stripLit]
  have hkinds : kindsL = kwQuery :: kwMutation :: kwAction :: kwInternalQuery ::
      kwInternalMutation :: kwInternalAction :: [] := rfl
  simp only [hkinds, tryKinds, hq, hm, ha, hiq, him, kindTail_self]

/-- One attempted export match at the head of a well-formed declaration
written with an arbitrary kind keyword whose alternation result is given. -/
theorem matchExportAt_kind (w : List Char) (hne : w ≠ [])
    (hw : ∀ c ∈ w, isWordChar c = true) (kd rest : List Char)
    (c0 : Char) (t0 : List Char) (hkd : kd = c0 :: t0) (hc0 : isWs c0 = false)
    (hkt : tryKinds kindsL (kd ++ ('(' :: '\x7b' :: rest)) = some (kd, rest)) :
    matchExportAt (("export const ").data ++
        (w ++ (' ' :: '=' :: ' ' :: (kd ++ ('(' :: '\x7b' :: rest)))))
      = some (w, kd, rest) := by
  have hhead : ∀ x ∈ (w ++ (' ' :: '=' :: ' ' ::
      (kd ++ ('(' :: '\x7b' :: rest)))).head?, isWs x = false := by
    cases w with
    | nil => exact absurd rfl hne
    | cons d0 w' =>
      intro x hx
      simp at hx
      rw [← hx]
      exact not_ws_of_wordChar (hw d0 (by simp))
  have hsplit : ("export const ").data ++
      (w ++ (' ' :: '=' :: ' ' :: (kd ++ ('(' :: '\x7b' :: rest)))) =
      kwExport ++ (' ' :: 'c' :: 'o' :: 'n' :: 's' :: 't' :: ' ' ::
        (w ++ (' ' :: '=' :: ' ' :: (kd ++ ('(' :: '\x7b' :: rest))))) := by
    simp [kwExport]
  rw [matchExportAt, hsplit, stripLit_of_eq, Option.some_bind]
  have hws1 : ws1 (' ' :: 'c' :: 'o' :: 'n' :: 's' :: 't' :: ' ' ::
      (w ++ (' ' :: '=' :: ' ' :: (kd ++ ('(' :: '\x7b' :: rest))))) =
      some ('c' :: 'o' :: 'n' :: 's' :: 't' :: ' ' ::
        (w ++ (' ' :: '=' :: ' ' :: (kd ++ ('(' :: '\x7b' :: rest))))) := by
    simp +decide [ws1, List.dropWhile_cons]
  rw [hws1, Option.some_bind]
  have hsplit2 : ('c' :: 'o' :: 'n' :: 's' :: 't' :: ' ' ::
      (w ++ (' ' :: '=' :: ' ' :: (kd ++ ('(' :: '\x7b' :: rest))))) =
      kwConst ++ (' ' ::
        (w ++ (' ' :: '=' :: ' ' :: (kd ++ ('(' :: '\x7b' :: rest))))) := rfl
  rw [hsplit2, stripLit_of_eq, Option.some_bind]
  have hws2 : ws1 (' ' ::
      (w ++ (' ' :: '=' :: ' ' :: (kd ++ ('(' :: '\x7b' :: rest))))) =
      some (w ++ (' ' :: '=' :: ' ' :: (kd ++ ('(' :: '\x7b' :: rest)))) := by
    rw [ws1]
    simp only [show isWs ' ' = true from by decide, if_true, Option.some.injEq]
    exact dropWhile_head_false hhead
  rw [hws2, Option.some_bind]
  have hw1 : word1 (w ++ (' ' :: '=' :: ' ' :: (kd ++ ('(' :: '\x7b' :: rest)))) =
      some (w, ' ' :: '=' :: ' ' :: (kd ++ ('(' :: '\x7b' :: rest))) :=
    word1_of_app hne hw (by intro x hx; simp at hx; rw [← hx]; decide)
  rw [hw1, Option.some_bind]
  have hws3 : wsSkip (' ' :: '=' :: ' ' :: (kd ++ ('(' :: '\x7b' :: rest))) =
      '=' :: ' ' :: (kd ++ ('(' :: '\x7b' :: rest)) := by
    simp +decide [wsSkip, List.dropWhile_cons]
  rw [hws3]
  have hexp : expectChar '=' ('=' :: ' ' :: (kd ++ ('(' :: '\x7b' :: rest))) =
      some (' ' :: (kd ++ ('(' :: '\x7b' :: rest))) := by
    simp [expectChar]
  rw [hexp, Option.some_bind]
  have hws4 : wsSkip (' ' :: (kd ++ ('(' :: '\x7b' :: rest))) =
      kd ++ ('(' :: '\x7b' :: rest) := by
    rw [wsSkip, List.dropWhile_cons]
    simp only [show isWs ' ' = true from by decide, if_true]
    rw [hkd, List.cons_append]
    exact dropWhile_head_false (by intro x hx; simp at hx; rw [← hx]; exact hc0)
  rw [hws4, hkt, Option.map_some']

theorem declKind_data (k f post : String) :
    (declKind k f ++ post).data = ("export const ").data ++
      (f.data ++ (' ' :: '=' :: ' ' ::
        (k.data ++ ('(' :: '\x7b' :: ('\x7d' :: ')' :: post.data))))) := by
  have e1 : (" = ").data = ' ' :: '=' :: ' ' :: [] := rfl
  have e2 : ("(\x7b\x7d)").data = '(' :: '\x7b' :: '\x7d' :: ')' :: [] := rfl
  simp [declKind, data_append, e1, e2, List.append_assoc]

/-- The extractor's first descriptor on `export const f = K(\x7b\x7d)...`
for any kind keyword `K` of the alternation, with the normalizer's value on
`K` given. -/
theorem extract_kind_head (k f mp post ty : String)
    (hf1 : f.data ≠ []) (hf2 : ∀ c ∈ f.data, isWordChar c = true)
    (c0 : Char) (t0 : List Char) (hkd : k.data = c0 :: t0) (hc0 : isWs c0 = false)
    (hkt : tryKinds kindsL (k.data ++ ('(' :: '\x7b' :: ('\x7d' :: ')' :: post.data))) =
      some (k.data, '\x7d' :: ')' :: post.data))
    (hnorm : normalizeType k = ty) :
    ∃ fn, (extractFunctions (declKind k f ++ post) mp).head? = some fn ∧
      fn.name = f ∧ fn.type = ty ∧ fn.path = mp ++ colonS ++ f := by
  rw [extractFunctions, declKind_data, scanExports]
  have hexp := matchExportAt_kind f.data hf1 hf2 (k.data) ('\x7d' :: ')' :: post.data)
    c0 t0 hkd hc0 hkt
  rw [scanExportsAux_match [] hexp, List.map_cons, List.head?_cons]
  refine ⟨_, rfl, rfl, ?_, ?_⟩
  · exact hnorm
  · show mp ++ String.mk ([':']) ++ String.mk (f.data) = mp ++ colonS ++ f
    have h1 : String.mk ([':']) = colonS := rfl
    have h2 : String.mk (f.data) = f := rfl
    rw [h1, h2]

/-- C3: every extracted function's `type` is one of exactly `query`,
`mutation`, `action`, and its `path` is the module path, a colon, and the
function name; the source's normalization maps each internal-prefixed kind
keyword to its own base kind and fixes the base kinds; and a declaration
written with `internalQuery`/`internalMutation`/`internalAction` produces a
descriptor whose `type` is `query`/`mutation`/`action` respectively. -/
theorem c3_type_and_path :
    (∀ (content mp : String), ∀ fn ∈ extractFunctions content mp,
      (fn.type = queryS ∨ fn.type = mutationS ∨ fn.type = actionS) ∧
      fn.path = mp ++ colonS ++ fn.name) ∧
    (normalizeType queryS = queryS ∧ normalizeType mutationS = mutationS ∧
      normalizeType actionS = actionS ∧ normalizeType internalQueryS = queryS ∧
      normalizeType internalMutationS = mutationS ∧
      normalizeType internalActionS = actionS) ∧
    (∀ f mp post : String, f.data ≠ [] → (∀ c ∈ f.data, isWordChar c = true) →
      (∃ fn, (extractFunctions (declKind internalQueryS f ++ post) mp).head? = some fn ∧
        fn.name = f ∧ fn.type = queryS ∧ fn.path = mp ++ colonS ++ f) ∧
      (∃ fn, (extractFunctions (declKind internalMutationS f ++ post) mp).head? = some fn ∧
        fn.name = f ∧ fn.type = mutationS ∧ fn.path = mp ++ colonS ++ f) ∧
      (∃ fn, (extractFunctions (declKind internalActionS f ++ post) mp).head? = some fn ∧
        fn.name = f ∧ fn.type = actionS ∧ fn.path = mp ++ colonS ++ f)) := by
  refine ⟨?_, ⟨by decide, by decide, by decide, by decide, by decide, by decide⟩, ?_⟩
  · intro content mp fn hfn
    rw [extractFunctions, List.mem_map] at hfn
    obtain ⟨m, hm, rfl⟩ := hfn
    refine ⟨?_, rfl⟩
    obtain ⟨rest, hmm⟩ := scanExportsAux_mem _ _ _ m hm
    obtain ⟨-, -, hkin⟩ := matchExportAt_spec hmm
    simp only [kindsL, List.mem_cons, List.not_mem_nil, or_false] at hkin
    rcases hkin with h | h | h | h | h | h <;> simp only [h] <;> decide
  · intro f mp post hf1 hf2
    refine ⟨extract_kind_head internalQueryS f mp post queryS hf1 hf2 'i'
        (("nternalQuery").data) rfl (by decide) (tryKinds_iq _) (by decide),
      extract_kind_head internalMutationS f mp post mutationS hf1 hf2 'i'
        (("nternalMutation").data) rfl (by decide) (tryKinds_im _) (by decide),
      extract_kind_head internalActionS f mp post actionS hf1 hf2 'i'
        (("nternalAction").data) rfl (by decide) (tryKinds_ia _) (by decide)⟩

/-- Witness for C3: the per-function property at a concrete file text, and
the internal-prefixed declarations at a concrete name with each kind mapped
to its base kind. -/
theorem c3_type_and_path_witness :
    (((queryS : String) = queryS ∨ (queryS : String) = mutationS ∨
        (queryS : String) = actionS) ∧
      convexS ++ colonS ++ qS = convexS ++ colonS ++ qS) ∧
    (∃ fn, (extractFunctions (declKind internalQueryS qS ++ emptyS) convexS).head? = some fn ∧
      fn.name = qS ∧ fn.type = queryS ∧ fn.path = convexS ++ colonS ++ qS) ∧
    (∃ fn, (extractFunctions (declKind internalMutationS qS ++ emptyS) convexS).head? = some fn ∧
      fn.name = qS ∧ fn.type = mutationS ∧ fn.path = convexS ++ colonS ++ qS) ∧
    (∃ fn, (extractFunctions (declKind internalActionS qS ++ emptyS) convexS).head? = some fn ∧
      fn.name = qS ∧ fn.type = actionS ∧ fn.path = convexS ++ colonS ++ qS) :=
  ⟨c3_type_and_path.1 goodContent convexS
      ⟨qS, convexS ++ colonS ++ qS, queryS, [], none⟩ (by decide),
    (c3_type_and_path.2.2 qS convexS emptyS (by decide) (by decide)).1,
    (c3_type_and_path.2.2 qS convexS emptyS (by decide) (by decide)).2.1,
    (c3_type_and_path.2.2 qS convexS emptyS (by decide) (by decide)).2.2⟩

end ConvexDevtools
